import Mathlib

/-!
Verification of the AStarAsync path-finding engine (rrainn/AStarAsync,
`src/index.ts`).

The engine is embedded shallowly:

* `Node` is `String` (the TypeScript alias `type Node = string`).
* JavaScript numbers are modelled as integers (`Int`).
* The per-invocation search state (`cameFrom`, `totalCosts`, `linkCosts`,
  `open`, `closed`, `iterations`) becomes an explicit `SearchState` record.
  The plain-object maps become functions `Node → Option _` (`none` models a
  missing property, `isSome` models `hasOwnProperty`); the JavaScript `Set`s
  become duplicate-free lists that keep insertion order, because the
  selection of the best frontier node iterates the open set in insertion
  order.
* The unbounded `while (true)` loop and the trace-back `for` loop become
  fuel-indexed recursions; a result of `none` means the source either has
  not terminated within the given fuel or would have crashed reading a
  missing `cameFrom` entry (`TypeError` on `undefined.from`).
* JavaScript comparisons against a possibly missing (`undefined`) property
  yield `false`; `jsLt` and `jsGt` reproduce this.
-/

namespace AStarAsync

/-- Nodes are JavaScript strings, following `type Node = string`. -/
abbrev Node := String

/-- Embedding of the TypeScript `Link` interface; the `from` and `to` fields
are named `fromNode` and `toNode` because `from` is reserved in Lean, and the
numeric `cost` is modelled as an integer. -/
structure Link where
  fromNode : Node
  toNode : Node
  cost : Int
deriving DecidableEq, Repr

/-- Embedding of the TypeScript `Path` result record.  The optional fields
`cost?` and `path?` become `Option` values (`none` models an absent field). -/
structure Path where
  found : Bool
  iterations : Nat
  cost : Option Int
  path : Option (List Link)
deriving DecidableEq, Repr

/-- Per-invocation search state of `findPath`: the three plain-object maps,
the two sets (as insertion-ordered duplicate-free lists) and the iteration
counter. -/
@[ext]
structure SearchState where
  cameFrom : Node → Option (Option Link)
  totalCosts : Node → Option Int
  linkCosts : Node → Option Int
  openSet : List Node
  closed : List Node
  iterations : Nat

/-- Assignment `m[k] = v` on a JavaScript object modelled as a function. -/
def mapSet {α : Type} (m : Node → Option α) (k : Node) (v : α) : Node → Option α :=
  fun x => if x = k then some v else m x

/-- JavaScript `Set.add`: a no-op when the element is present, otherwise the
element is appended, preserving first-insertion iteration order. -/
def setAdd (s : List Node) (x : Node) : List Node :=
  if x ∈ s then s else s ++ [x]

/-- JavaScript `a < b` where either operand may be a missing property
(`undefined`): any comparison with `undefined` is `false`. -/
def jsLt : Option Int → Option Int → Bool
  | some a, some b => a < b
  | _, _ => false

/-- JavaScript `a > b` where `a` may be a missing property. -/
def jsGt : Option Int → Int → Bool
  | some a, b => b < a
  | none, _ => false

/-- Embedding of the best-candidate scan
`for (const openNode of open) if (best === null || totalCosts[openNode] < totalCosts[best]) best = openNode;`.
The accumulator is the current `best` (initially `null`, i.e. `none`). -/
def findBest (tc : Node → Option Int) : List Node → Option Node → Option Node
  | [], best => best
  | n :: rest, best =>
    match best with
    | none => findBest tc rest (some n)
    | some b =>
      if jsLt (tc n) (tc b) then findBest tc rest (some n) else findBest tc rest (some b)

/-- Cost-relaxation part of the body of
`for (const link of links)` (inside the guard `!closed.has(link.to)`):
reading `linkCosts[best]`, computing the candidate cost, and conditionally
updating `linkCosts`, `totalCosts` and `cameFrom`.  A missing `linkCosts[best]`
is modelled by the (never reached, see the open-set domain invariant) default
value `0`. -/
def relaxCost (heuristic : Node → Node → Int) (start best : Node)
    (st : SearchState) (link : Link) : SearchState :=
  if !(st.linkCosts link.toNode).isSome
      || jsGt (st.linkCosts link.toNode) ((st.linkCosts best).getD 0 + link.cost) then
    { st with
      linkCosts := mapSet st.linkCosts link.toNode ((st.linkCosts best).getD 0 + link.cost)
      totalCosts := mapSet st.totalCosts link.toNode
        ((st.linkCosts best).getD 0 + link.cost + heuristic start link.toNode)
      cameFrom := mapSet st.cameFrom link.toNode (some link) }
  else st

/-- Full body of `for (const link of links)`: links into the closed set are
skipped entirely; otherwise the cost relaxation runs and `link.to` is added
to the open set. -/
def relaxLink (heuristic : Node → Node → Int) (start best : Node)
    (st : SearchState) (link : Link) : SearchState :=
  if link.toNode ∈ st.closed then st
  else
    let st1 := relaxCost heuristic start best st link
    { st1 with openSet := setAdd st1.openSet link.toNode }

/-- Embedding of the trace-back loop
`for (let previousLink = cameFrom[best]; previousLink !== null; previousLink = cameFrom[previousLink.from]) path.unshift(previousLink);`.
The result `none` models either a missing `cameFrom` entry (where the source
would crash with a `TypeError`) or a chain that does not reach the `null`
entry within the given fuel (where the source loops forever). -/
def reconstruct (cf : Node → Option (Option Link)) : Nat → Node → Option (List Link)
  | 0, _ => none
  | fuel + 1, node =>
    match cf node with
    | none => none
    | some none => some []
    | some (some link) =>
      match reconstruct cf fuel link.fromNode with
      | none => none
      | some p => some (p ++ [link])

/-- Result of one iteration of the `while (true)` loop: either the loop
continues with an updated state, or `findPath` returns a `Path`, or the
trace-back crashes/diverges (`stuck`). -/
inductive StepR where
  | next (st : SearchState)
  | out (p : Path)
  | stuck
deriving Inhabited

/-- One iteration of the `while (true)` loop of `findPath`: select `best`
from the open set; if there is none report failure; if it is the goal, trace
the path back and report it together with `linkCosts[best]`; otherwise expand
`best` via `calculateLinksForNode`, relax all its links, move `best` from
`open` to `closed` and increment `iterations`.  The trace-back loop here is
given fuel `closed.length + 2`, which is proved sufficient whenever the
expander is honest (every reported link leaves the queried node, so
terminating `cameFrom` chains descend through `closed`); for arbitrary
(possibly dishonest) collaborators the general runner `stepSearchR` below
keeps the trace-back fuel as an independent unbounded parameter, covering
every terminating execution of the source. -/
def stepSearch (calculateLinksForNode : Node → List Link)
    (calculateHeuristicCostToTraverseLink : Node → Node → Int)
    (start goal : Node) (st : SearchState) : StepR :=
  match findBest st.totalCosts st.openSet none with
  | none => .out { found := false, iterations := st.iterations, cost := none, path := none }
  | some best =>
    if goal = best then
      match reconstruct st.cameFrom (st.closed.length + 2) best with
      | none => .stuck
      | some p =>
        .out { found := true, iterations := st.iterations
               cost := st.linkCosts best, path := some p }
    else
      let links := calculateLinksForNode best
      let st1 := links.foldl (relaxLink calculateHeuristicCostToTraverseLink start best) st
      .next { st1 with
              closed := setAdd st1.closed best
              openSet := st1.openSet.erase best
              iterations := st1.iterations + 1 }

/-- Fuel-indexed iteration of the `while (true)` loop. -/
def findPathLoop (calculateLinksForNode : Node → List Link)
    (calculateHeuristicCostToTraverseLink : Node → Node → Int)
    (start goal : Node) : Nat → SearchState → Option Path
  | 0, _ => none
  | fuel + 1, st =>
    match stepSearch calculateLinksForNode calculateHeuristicCostToTraverseLink start goal st with
    | .next st' =>
      findPathLoop calculateLinksForNode calculateHeuristicCostToTraverseLink start goal fuel st'
    | .out p => some p
    | .stuck => none

/-- Initial search state of `findPath`: `open = {start}`,
`cameFrom[start] = null`, `linkCosts[start] = totalCosts[start] = 0`,
`iterations = 1`. -/
def initState (start : Node) : SearchState :=
  { cameFrom := mapSet (fun _ => none) start none
    totalCosts := mapSet (fun _ => none) start 0
    linkCosts := mapSet (fun _ => none) start 0
    openSet := [start]
    closed := []
    iterations := 1 }

/-- Default heuristic installed by the constructor when none is supplied:
`calculateHeuristicCostToTraverseLink || (() => 0)`. -/
def defaultHeuristic : Node → Node → Int := fun _ _ => 0

/-- Embedding of `AStar.findPath(start, goal)` for the collaborators held by
the instance, with explicit fuel for the `while (true)` loop. -/
def findPath (calculateLinksForNode : Node → List Link)
    (calculateHeuristicCostToTraverseLink : Node → Node → Int)
    (start goal : Node) (fuel : Nat) : Option Path :=
  findPathLoop calculateLinksForNode calculateHeuristicCostToTraverseLink start goal fuel
    (initState start)

/-- Expansion function used by the repository's test-suite: all links of a
fixed list whose `from` field equals the queried node. -/
def linksToExpander (links : List Link) : Node → List Link :=
  fun n => links.filter (fun l => decide (l.fromNode = n))

/-- Cumulative link cost of a sequence of links. -/
def pathCost : List Link → Int
  | [] => 0
  | l :: ls => l.cost + pathCost ls

/-- Paths of the graph described by `calculateLinksForNode`: `IsPath exp a ls b`
says the link sequence `ls` leads from node `a` to node `b`, each link being
reported by the expander for the node it leaves. -/
def IsPath (calculateLinksForNode : Node → List Link) : Node → List Link → Node → Prop
  | a, [], b => a = b
  | a, l :: ls, b => l.fromNode = a ∧ l ∈ calculateLinksForNode a ∧ IsPath calculateLinksForNode l.toNode ls b

/-! Basic lemmas about the building blocks of the embedding. -/

theorem mapSet_same {α : Type} (m : Node → Option α) (k : Node) (v : α) :
    mapSet m k v k = some v := by
  simp [mapSet]

theorem mapSet_other {α : Type} (m : Node → Option α) {k x : Node} (v : α) (h : x ≠ k) :
    mapSet m k v x = m x := by
  simp [mapSet, h]

theorem mem_setAdd {s : List Node} {x y : Node} :
    y ∈ setAdd s x ↔ y = x ∨ y ∈ s := by
  unfold setAdd
  split
  · rename_i hx
    constructor
    · exact fun h => Or.inr h
    · rintro (rfl | h) <;> assumption
  · simp [List.mem_append, or_comm]

theorem setAdd_of_mem {s : List Node} {x : Node} (h : x ∈ s) : setAdd s x = s := by
  simp [setAdd, h]

theorem setAdd_of_not_mem {s : List Node} {x : Node} (h : x ∉ s) : setAdd s x = s ++ [x] := by
  simp [setAdd, h]

theorem setAdd_nodup {s : List Node} {x : Node} (h : s.Nodup) : (setAdd s x).Nodup := by
  unfold setAdd
  split
  · exact h
  · rename_i hx
    simpa [List.nodup_append, h] using hx

theorem mem_setAdd_self (s : List Node) (x : Node) : x ∈ setAdd s x := by
  rw [mem_setAdd]; exact Or.inl rfl

theorem mem_setAdd_of_mem {s : List Node} {y : Node} (x : Node) (h : y ∈ s) :
    y ∈ setAdd s x := by
  rw [mem_setAdd]; exact Or.inr h

theorem jsLt_some_some {a b : Int} : jsLt (some a) (some b) = decide (a < b) := by
  simp [jsLt]

theorem jsLt_none_left (b : Option Int) : jsLt none b = false := by
  cases b <;> rfl

theorem jsGt_some {a b : Int} : jsGt (some a) b = decide (b < a) := by
  simp [jsGt]

/-- Fields of the state other than the three maps are untouched by the
cost-relaxation step. -/
theorem relaxCost_openSet (h : Node → Node → Int) (start best : Node)
    (st : SearchState) (l : Link) :
    (relaxCost h start best st l).openSet = st.openSet := by
  unfold relaxCost; split <;> rfl

theorem relaxCost_closed (h : Node → Node → Int) (start best : Node)
    (st : SearchState) (l : Link) :
    (relaxCost h start best st l).closed = st.closed := by
  unfold relaxCost; split <;> rfl

theorem relaxCost_iterations (h : Node → Node → Int) (start best : Node)
    (st : SearchState) (l : Link) :
    (relaxCost h start best st l).iterations = st.iterations := by
  unfold relaxCost; split <;> rfl

theorem relaxLink_closed (h : Node → Node → Int) (start best : Node)
    (st : SearchState) (l : Link) :
    (relaxLink h start best st l).closed = st.closed := by
  unfold relaxLink
  split
  · rfl
  · simp [relaxCost_closed]

theorem relaxLink_iterations (h : Node → Node → Int) (start best : Node)
    (st : SearchState) (l : Link) :
    (relaxLink h start best st l).iterations = st.iterations := by
  unfold relaxLink
  split
  · rfl
  · simp [relaxCost_iterations]

/-- When the link target is in the closed set, the whole loop body is skipped. -/
theorem relaxLink_of_closed {st : SearchState} {l : Link}
    (h : Node → Node → Int) (start best : Node) (hc : l.toNode ∈ st.closed) :
    relaxLink h start best st l = st := by
  unfold relaxLink
  rw [if_pos hc]

theorem relaxLink_of_not_closed {st : SearchState} {l : Link}
    (h : Node → Node → Int) (start best : Node) (hc : l.toNode ∉ st.closed) :
    relaxLink h start best st l =
      { relaxCost h start best st l with
        openSet := setAdd (relaxCost h start best st l).openSet l.toNode } := by
  unfold relaxLink
  rw [if_neg hc]

/-- Maps at nodes other than the link target are untouched. -/
theorem relaxCost_maps_other (st : SearchState) (l : Link) {x : Node}
    (h : Node → Node → Int) (start best : Node) (hx : x ≠ l.toNode) :
    (relaxCost h start best st l).linkCosts x = st.linkCosts x ∧
    (relaxCost h start best st l).totalCosts x = st.totalCosts x ∧
    (relaxCost h start best st l).cameFrom x = st.cameFrom x := by
  unfold relaxCost
  split
  · exact ⟨mapSet_other _ _ hx, mapSet_other _ _ hx, mapSet_other _ _ hx⟩
  · exact ⟨rfl, rfl, rfl⟩

/-- Case analysis for the relaxation of one link at its target node:
either nothing was updated (and the target already had a recorded cost that
is not greater than the candidate) or all three maps were updated with the
candidate cost and the link itself. -/
theorem relaxCost_cases (h : Node → Node → Int) (start best : Node)
    (st : SearchState) (l : Link) :
    (relaxCost h start best st l = st ∧
      ∃ g, st.linkCosts l.toNode = some g ∧ g ≤ (st.linkCosts best).getD 0 + l.cost) ∨
    ((relaxCost h start best st l).linkCosts =
        mapSet st.linkCosts l.toNode ((st.linkCosts best).getD 0 + l.cost) ∧
      (relaxCost h start best st l).totalCosts =
        mapSet st.totalCosts l.toNode
          ((st.linkCosts best).getD 0 + l.cost + h start l.toNode) ∧
      (relaxCost h start best st l).cameFrom =
        mapSet st.cameFrom l.toNode (some l) ∧
      (st.linkCosts l.toNode = none ∨
        ∃ g, st.linkCosts l.toNode = some g ∧ (st.linkCosts best).getD 0 + l.cost < g)) := by
  unfold relaxCost
  split
  · rename_i hcond
    refine Or.inr ⟨rfl, rfl, rfl, ?_⟩
    rcases hg : st.linkCosts l.toNode with _ | g
    · exact Or.inl rfl
    · refine Or.inr ⟨g, rfl, ?_⟩
      rw [hg] at hcond
      rcases Bool.or_eq_true _ _ |>.mp hcond with h1 | h2
      · simp at h1
      · simpa [jsGt_some] using h2
  · rename_i hcond
    refine Or.inl ⟨rfl, ?_⟩
    rcases hg : st.linkCosts l.toNode with _ | g
    · exfalso; apply hcond; simp [hg]
    · refine ⟨g, rfl, ?_⟩
      by_contra hlt
      push_neg at hlt
      apply hcond
      simp [hg, jsGt_some, hlt]

theorem reconstruct_succ_missing {cf : Node → Option (Option Link)} {x : Node} {n : Nat}
    (h : cf x = none) : reconstruct cf (n + 1) x = none := by
  simp [reconstruct, h]

theorem reconstruct_succ_null {cf : Node → Option (Option Link)} {x : Node} {n : Nat}
    (h : cf x = some none) : reconstruct cf (n + 1) x = some [] := by
  simp [reconstruct, h]

theorem reconstruct_succ_link {cf : Node → Option (Option Link)} {x : Node} {l : Link} {n : Nat}
    (h : cf x = some (some l)) :
    reconstruct cf (n + 1) x =
      match reconstruct cf n l.fromNode with
      | none => none
      | some p => some (p ++ [l]) := by
  simp only [reconstruct, h]

/-- Fuel monotonicity of the trace-back: a successful trace-back stays
successful (with the same result) when given more fuel. -/
theorem reconstruct_mono (cf : Node → Option (Option Link)) :
    ∀ fuel fuel' x p, fuel ≤ fuel' → reconstruct cf fuel x = some p →
      reconstruct cf fuel' x = some p := by
  intro fuel
  induction fuel with
  | zero => intro fuel' x p _ hr; simp [reconstruct] at hr
  | succ n ih =>
    intro fuel' x p hle hr
    rcases fuel' with _ | m
    · omega
    rcases hcf : cf x with _ | ol
    · rw [reconstruct_succ_missing hcf] at hr; cases hr
    rcases ol with _ | l
    · rw [reconstruct_succ_null hcf] at hr
      rw [reconstruct_succ_null hcf]
      exact hr
    · rw [reconstruct_succ_link hcf] at hr
      rw [reconstruct_succ_link hcf]
      rcases hrec : reconstruct cf n l.fromNode with _ | p'
      · rw [hrec] at hr; cases hr
      · rw [hrec] at hr
        rw [ih m l.fromNode p' (by omega) hrec]
        exact hr

/-- Position of a node in a list (length of the list when absent); used to
measure the descent of `cameFrom` chains through the closed list. -/
def idxIn : List Node → Node → Nat
  | [], _ => 0
  | y :: ys, x => if y = x then 0 else idxIn ys x + 1

theorem idxIn_cons (y : Node) (ys : List Node) (x : Node) :
    idxIn (y :: ys) x = if y = x then 0 else idxIn ys x + 1 := rfl

theorem idxIn_lt_length {l : List Node} {x : Node} (h : x ∈ l) : idxIn l x < l.length := by
  induction l with
  | nil => cases h
  | cons y ys ih =>
    rw [idxIn_cons]
    by_cases hy : y = x
    · simp [hy]
    · rcases List.mem_cons.mp h with rfl | hmem
      · exact absurd rfl hy
      · simpa [hy] using ih hmem

theorem mem_of_idxIn_lt_length {l : List Node} {x : Node} (h : idxIn l x < l.length) :
    x ∈ l := by
  induction l with
  | nil => simp [idxIn] at h
  | cons y ys ih =>
    rw [idxIn_cons] at h
    by_cases hy : y = x
    · exact hy ▸ List.mem_cons_self y ys
    · rw [if_neg hy] at h
      simp only [List.length_cons] at h
      exact List.mem_cons_of_mem _ (ih (by omega))

theorem idxIn_append_of_mem {l : List Node} {x : Node} (l' : List Node) (h : x ∈ l) :
    idxIn (l ++ l') x = idxIn l x := by
  induction l with
  | nil => cases h
  | cons y ys ih =>
    rw [List.cons_append, idxIn_cons, idxIn_cons]
    by_cases hy : y = x
    · simp [hy]
    · rcases List.mem_cons.mp h with rfl | hmem
      · exact absurd rfl hy
      · simp [hy, ih hmem]

theorem idxIn_append_self {l : List Node} {x : Node} (h : x ∉ l) :
    idxIn (l ++ [x]) x = l.length := by
  induction l with
  | nil => simp [idxIn]
  | cons y ys ih =>
    have hy : y ≠ x := fun hyx => h (hyx ▸ List.mem_cons_self y ys)
    rw [List.cons_append, idxIn_cons, if_neg hy, ih (fun hm => h (List.mem_cons_of_mem _ hm)),
      List.length_cons]

theorem pathCost_append (p : List Link) (l : Link) :
    pathCost (p ++ [l]) = pathCost p + l.cost := by
  induction p with
  | nil => simp [pathCost]
  | cons a as ih => simp [pathCost, ih]; ring

theorem IsPath_append {exp : Node → List Link} {a b : Node} {p : List Link} {l : Link}
    (hp : IsPath exp a p b) (hfrom : l.fromNode = b) (hmem : l ∈ exp b) :
    IsPath exp a (p ++ [l]) l.toNode := by
  induction p generalizing a with
  | nil =>
    cases hp
    exact ⟨hfrom, hmem, rfl⟩
  | cons x xs ih =>
    obtain ⟨hx, hxm, hrest⟩ := hp
    exact ⟨hx, hxm, ih hrest⟩

theorem pathCost_nonneg {exp : Node → List Link}
    (hnn : ∀ n l, l ∈ exp n → 0 ≤ l.cost) :
    ∀ {a b : Node} {q : List Link}, IsPath exp a q b → 0 ≤ pathCost q := by
  intro a b q
  induction q generalizing a with
  | nil => intro _; simp [pathCost]
  | cons l ls ih =>
    rintro ⟨hfrom, hmem, hrest⟩
    have h1 : 0 ≤ l.cost := hnn a l hmem
    have h2 : 0 ≤ pathCost ls := ih hrest
    simp only [pathCost]
    omega

/-! Lemmas about the best-candidate scan `findBest`. -/

/-- Shorthand for the recorded value of a defined map entry. -/
def tcv (tc : Node → Option Int) (n : Node) : Int := (tc n).getD 0

theorem jsLt_eq_decide {tc : Node → Option Int} {a b : Node}
    (ha : (tc a).isSome) (hb : (tc b).isSome) :
    jsLt (tc a) (tc b) = decide (tcv tc a < tcv tc b) := by
  rcases hga : tc a with _ | ga
  · rw [hga] at ha; cases ha
  rcases hgb : tc b with _ | gb
  · rw [hgb] at hb; cases hb
  simp [jsLt, tcv, hga, hgb]

theorem findBest_mem {tc : Node → Option Int} :
    ∀ (rest : List Node) (acc b : Node),
      findBest tc rest (some acc) = some b → b = acc ∨ b ∈ rest := by
  intro rest
  induction rest with
  | nil => intro acc b h; cases h; exact Or.inl rfl
  | cons n rs ih =>
    intro acc b h
    rw [findBest] at h
    split at h
    · rcases ih n b h with rfl | hm
      · exact Or.inr (List.mem_cons_self _ _)
      · exact Or.inr (List.mem_cons_of_mem _ hm)
    · rcases ih acc b h with rfl | hm
      · exact Or.inl rfl
      · exact Or.inr (List.mem_cons_of_mem _ hm)

theorem findBest_min {tc : Node → Option Int} :
    ∀ (rest : List Node) (acc b : Node),
      (∀ n ∈ rest, (tc n).isSome) → (tc acc).isSome →
      findBest tc rest (some acc) = some b →
      tcv tc b ≤ tcv tc acc ∧ ∀ n ∈ rest, tcv tc b ≤ tcv tc n := by
  intro rest
  induction rest with
  | nil =>
    intro acc b _ _ h
    cases h
    exact ⟨le_refl _, by intro n hn; cases hn⟩
  | cons n rs ih =>
    intro acc b hdom hacc h
    have hn : (tc n).isSome := hdom n (List.mem_cons_self _ _)
    have hrs : ∀ m ∈ rs, (tc m).isSome := fun m hm => hdom m (List.mem_cons_of_mem _ hm)
    rw [findBest, jsLt_eq_decide hn hacc] at h
    by_cases hlt : tcv tc n < tcv tc acc
    · rw [if_pos (by simpa using hlt)] at h
      obtain ⟨h1, h2⟩ := ih n b hrs hn h
      refine ⟨le_of_lt (lt_of_le_of_lt h1 hlt), ?_⟩
      intro m hm
      rcases List.mem_cons.mp hm with rfl | hm'
      · exact h1
      · exact h2 m hm'
    · rw [if_neg (by simpa using hlt)] at h
      obtain ⟨h1, h2⟩ := ih acc b hrs hacc h
      refine ⟨h1, ?_⟩
      intro m hm
      rcases List.mem_cons.mp hm with rfl | hm'
      · exact le_trans h1 (le_of_not_lt hlt)
      · exact h2 m hm'

theorem findBest_first {tc : Node → Option Int} :
    ∀ (rest : List Node) (acc b : Node),
      (∀ n ∈ rest, (tc n).isSome) → (tc acc).isSome →
      findBest tc rest (some acc) = some b →
      b = acc ∨ ∃ pre post, rest = pre ++ b :: post ∧ tcv tc b < tcv tc acc ∧
        ∀ m ∈ pre, tcv tc b < tcv tc m := by
  intro rest
  induction rest with
  | nil => intro acc b _ _ h; cases h; exact Or.inl rfl
  | cons n rs ih =>
    intro acc b hdom hacc h
    have hn : (tc n).isSome := hdom n (List.mem_cons_self _ _)
    have hrs : ∀ m ∈ rs, (tc m).isSome := fun m hm => hdom m (List.mem_cons_of_mem _ hm)
    rw [findBest, jsLt_eq_decide hn hacc] at h
    by_cases hlt : tcv tc n < tcv tc acc
    · rw [if_pos (by simpa using hlt)] at h
      rcases ih n b hrs hn h with rfl | ⟨pre, post, hsplit, hblt, hpre⟩
      · exact Or.inr ⟨[], rs, rfl, hlt, by intro m hm; cases hm⟩
      · refine Or.inr ⟨n :: pre, post, by rw [hsplit]; rfl, lt_trans hblt hlt, ?_⟩
        intro m hm
        rcases List.mem_cons.mp hm with rfl | hm'
        · exact hblt
        · exact hpre m hm'
    · rw [if_neg (by simpa using hlt)] at h
      rcases ih acc b hrs hacc h with rfl | ⟨pre, post, hsplit, hblt, hpre⟩
      · exact Or.inl rfl
      · refine Or.inr ⟨n :: pre, post, by rw [hsplit]; rfl, hblt, ?_⟩
        intro m hm
        rcases List.mem_cons.mp hm with rfl | hm'
        · exact lt_of_lt_of_le hblt (le_of_not_lt hlt)
        · exact hpre m hm'

/-- The selection scan starting from `null` never picks a node outside the
open set, and an empty open set yields `null`. -/
theorem findBest_none_mem {tc : Node → Option Int} {l : List Node} {b : Node}
    (h : findBest tc l none = some b) : b ∈ l := by
  rcases l with _ | ⟨n, rs⟩
  · cases h
  · rw [findBest] at h
    rcases findBest_mem rs n b h with rfl | hm
    · exact List.mem_cons_self _ _
    · exact List.mem_cons_of_mem _ hm

theorem findBest_nil_eq (tc : Node → Option Int) (acc : Option Node) :
    findBest tc [] acc = acc := rfl

theorem findBest_isSome {tc : Node → Option Int} {l : List Node} (h : l ≠ []) :
    (findBest tc l none).isSome := by
  rcases l with _ | ⟨n, rs⟩
  · exact absurd rfl h
  rw [findBest]
  clear h
  induction rs generalizing n with
  | nil => rfl
  | cons m ms ih =>
    rw [findBest]
    split
    · exact ih m
    · exact ih n

theorem tcv_eq {tc : Node → Option Int} {x : Node} {g : Int} (h : tc x = some g) :
    tcv tc x = g := by simp [tcv, h]

/-- Full specification of the best-candidate scan on a state whose open
nodes all carry a recorded total cost. -/
theorem findBest_spec
    (st : SearchState) (b : Node)
    (hdom : ∀ n ∈ st.openSet, (st.totalCosts n).isSome)
    (hb : findBest st.totalCosts st.openSet none = some b) :
    b ∈ st.openSet ∧
    (∀ n ∈ st.openSet, ∀ gb gn,
      st.totalCosts b = some gb → st.totalCosts n = some gn → gb ≤ gn) ∧
    (∃ pre post, st.openSet = pre ++ b :: post ∧
      ∀ m ∈ pre, ∀ gb gm,
        st.totalCosts b = some gb → st.totalCosts m = some gm → gb < gm) := by
  refine ⟨findBest_none_mem hb, ?_, ?_⟩
  · rcases hl : st.openSet with _ | ⟨n, rs⟩
    · rw [hl] at hb; cases hb
    rw [hl] at hb hdom
    rw [findBest] at hb
    have hn : (st.totalCosts n).isSome := hdom n (List.mem_cons_self _ _)
    have hrs : ∀ m ∈ rs, (st.totalCosts m).isSome :=
      fun m hm => hdom m (List.mem_cons_of_mem _ hm)
    obtain ⟨h1, h2⟩ := findBest_min rs n b hrs hn hb
    intro m hm gb gm hgb hgm
    have : tcv st.totalCosts b ≤ tcv st.totalCosts m := by
      rcases List.mem_cons.mp hm with rfl | hm'
      · exact h1
      · exact h2 m hm'
    rwa [tcv_eq hgb, tcv_eq hgm] at this
  · rcases hl : st.openSet with _ | ⟨n, rs⟩
    · rw [hl] at hb; cases hb
    rw [hl] at hb hdom
    rw [findBest] at hb
    have hn : (st.totalCosts n).isSome := hdom n (List.mem_cons_self _ _)
    have hrs : ∀ m ∈ rs, (st.totalCosts m).isSome :=
      fun m hm => hdom m (List.mem_cons_of_mem _ hm)
    rcases findBest_first rs n b hrs hn hb with rfl | ⟨pre, post, hsplit, hblt, hpre⟩
    · exact ⟨[], rs, rfl, by intro m hm; cases hm⟩
    · refine ⟨n :: pre, post, by rw [hsplit]; rfl, ?_⟩
      intro m hm gb gm hgb hgm
      have : tcv st.totalCosts b < tcv st.totalCosts m := by
        rcases List.mem_cons.mp hm with rfl | hm'
        · exact hblt
        · exact hpre m hm'
      rwa [tcv_eq hgb, tcv_eq hgm] at this

/-- C3: on every loop iteration with a non-empty open set, the node chosen for
expansion (the result of the `findBest` scan over `totalCosts`, as performed
by `stepSearch`) belongs to the open set, its `totalCosts` value is minimal
among the open nodes, and every open node strictly before it in the open
set's insertion-iteration order has a strictly greater `totalCosts` value (so
ties go to the first node encountered in iteration order). -/
theorem findBest_selects_first_minimal
    (st : SearchState) (b : Node)
    (hdom : ∀ n ∈ st.openSet, (st.totalCosts n).isSome)
    (hb : findBest st.totalCosts st.openSet none = some b) :
    b ∈ st.openSet ∧
    (∀ n ∈ st.openSet, ∀ gb gn,
      st.totalCosts b = some gb → st.totalCosts n = some gn → gb ≤ gn) ∧
    (∃ pre post, st.openSet = pre ++ b :: post ∧
      ∀ m ∈ pre, ∀ gb gm,
        st.totalCosts b = some gb → st.totalCosts m = some gm → gb < gm) :=
  findBest_spec st b hdom hb

/-- C3 witness: on a concrete two-node open set with equal total costs the
scan picks the first node in iteration order. -/
theorem findBest_selects_first_minimal_witness :
    let st : SearchState :=
      { cameFrom := fun _ => none
        totalCosts := fun x => if x = "a" then some 3 else if x = "b" then some 3 else none
        linkCosts := fun _ => none
        openSet := ["a", "b"]
        closed := []
        iterations := 1 }
    "a" ∈ st.openSet ∧
    (∀ n ∈ st.openSet, ∀ gb gn,
      st.totalCosts "a" = some gb → st.totalCosts n = some gn → gb ≤ gn) ∧
    (∃ pre post, st.openSet = pre ++ "a" :: post ∧
      ∀ m ∈ pre, ∀ gb gm,
        st.totalCosts "a" = some gb → st.totalCosts m = some gm → gb < gm) := by
  intro st
  exact findBest_selects_first_minimal st "a" (by decide) (by decide)

/-- C5: searching from a node to itself returns immediately with
`{found: true, cost: 0, iterations: 1, path: []}`, whatever the collaborators
are: the expander is never called because the goal is selected on the very
first iteration. -/
theorem findPath_self (calculateLinksForNode : Node → List Link)
    (calculateHeuristicCostToTraverseLink : Node → Node → Int) (n : Node) (fuel : Nat) :
    findPath calculateLinksForNode calculateHeuristicCostToTraverseLink n n (fuel + 1) =
      some { found := true, iterations := 1, cost := some 0, path := some [] } := by
  have hstep : stepSearch calculateLinksForNode calculateHeuristicCostToTraverseLink n n
      (initState n) =
      .out { found := true, iterations := 1, cost := some 0, path := some [] } := by
    unfold stepSearch
    simp [initState, findBest, mapSet, reconstruct]
  unfold findPath findPathLoop
  rw [hstep]

/-- C6: when start and goal differ and the expander reports no links from the
start node, the search expands start once, finds the frontier empty and
reports `{found: false, iterations: 2}` with no cost and no path fields. -/
theorem findPath_no_links_from_start (calculateLinksForNode : Node → List Link)
    (calculateHeuristicCostToTraverseLink : Node → Node → Int) (start goal : Node) (fuel : Nat)
    (hne : start ≠ goal) (hempty : calculateLinksForNode start = []) :
    findPath calculateLinksForNode calculateHeuristicCostToTraverseLink start goal (fuel + 2) =
      some { found := false, iterations := 2, cost := none, path := none } := by
  have hgoal : ¬(goal = start) := fun h => hne h.symm
  have hstep1 : stepSearch calculateLinksForNode calculateHeuristicCostToTraverseLink start goal
      (initState start) =
      .next { initState start with closed := [start], openSet := [], iterations := 2 } := by
    unfold stepSearch
    simp [initState, findBest, hgoal, hempty, setAdd, List.foldl]
  have hstep2 : stepSearch calculateLinksForNode calculateHeuristicCostToTraverseLink start goal
      { initState start with closed := [start], openSet := [], iterations := 2 } =
      .out { found := false, iterations := 2, cost := none, path := none } := by
    unfold stepSearch
    simp [findBest]
  unfold findPath findPathLoop
  rw [hstep1]
  unfold findPathLoop
  rw [hstep2]

/-- C6 witness: a concrete graph with no links from the start node. -/
theorem findPath_no_links_from_start_witness :
    findPath (linksToExpander []) defaultHeuristic "a" "c" 2 =
      some { found := false, iterations := 2, cost := none, path := none } :=
  findPath_no_links_from_start (linksToExpander []) defaultHeuristic "a" "c" 0
    (by decide) (by decide)

/-! Unfolding equations for one iteration of the search loop. -/

theorem stepSearch_empty {exp : Node → List Link} {h : Node → Node → Int}
    {start goal : Node} {st : SearchState}
    (hb : findBest st.totalCosts st.openSet none = none) :
    stepSearch exp h start goal st =
      .out { found := false, iterations := st.iterations, cost := none, path := none } := by
  unfold stepSearch
  rw [hb]

theorem stepSearch_goal {exp : Node → List Link} {h : Node → Node → Int}
    {start goal : Node} {st : SearchState} {best : Node} {p : List Link}
    (hb : findBest st.totalCosts st.openSet none = some best)
    (hg : goal = best)
    (hr : reconstruct st.cameFrom (st.closed.length + 2) best = some p) :
    stepSearch exp h start goal st =
      .out { found := true, iterations := st.iterations
             cost := st.linkCosts best, path := some p } := by
  unfold stepSearch
  rw [hb]
  dsimp only
  rw [if_pos hg, hr]

theorem stepSearch_goal_stuck {exp : Node → List Link} {h : Node → Node → Int}
    {start goal : Node} {st : SearchState} {best : Node}
    (hb : findBest st.totalCosts st.openSet none = some best)
    (hg : goal = best)
    (hr : reconstruct st.cameFrom (st.closed.length + 2) best = none) :
    stepSearch exp h start goal st = .stuck := by
  unfold stepSearch
  rw [hb]
  dsimp only
  rw [if_pos hg, hr]

theorem stepSearch_expand {exp : Node → List Link} {h : Node → Node → Int}
    {start goal : Node} {st : SearchState} {best : Node}
    (hb : findBest st.totalCosts st.openSet none = some best)
    (hg : ¬ goal = best) :
    stepSearch exp h start goal st =
      .next { (exp best).foldl (relaxLink h start best) st with
              closed := setAdd ((exp best).foldl (relaxLink h start best) st).closed best
              openSet := ((exp best).foldl (relaxLink h start best) st).openSet.erase best
              iterations := ((exp best).foldl (relaxLink h start best) st).iterations + 1 } := by
  unfold stepSearch
  rw [hb]
  dsimp only
  rw [if_neg hg]

/-! Claim C2: finality of the closed set. -/

theorem relaxLink_frozen {st : SearchState} {l : Link} {n : Node}
    (h : Node → Node → Int) (start best : Node) (hn : n ∈ st.closed) :
    (relaxLink h start best st l).closed = st.closed ∧
    (relaxLink h start best st l).linkCosts n = st.linkCosts n ∧
    (relaxLink h start best st l).totalCosts n = st.totalCosts n ∧
    (relaxLink h start best st l).cameFrom n = st.cameFrom n ∧
    (n ∉ st.openSet → n ∉ (relaxLink h start best st l).openSet) := by
  by_cases hc : l.toNode ∈ st.closed
  · rw [relaxLink_of_closed h start best hc]
    exact ⟨rfl, rfl, rfl, rfl, fun h _ => by exact h ‹_›⟩
  · have hne : n ≠ l.toNode := fun he => hc (he ▸ hn)
    rw [relaxLink_of_not_closed h start best hc]
    obtain ⟨h1, h2, h3⟩ := relaxCost_maps_other st l h start best hne
    refine ⟨relaxCost_closed h start best st l, h1, h2, h3, ?_⟩
    intro hno hmem
    rcases mem_setAdd.mp hmem with he | hmem'
    · exact hne he
    · rw [relaxCost_openSet] at hmem'
      exact hno hmem'

theorem foldRelax_frozen (h : Node → Node → Int) (start best : Node) (links : List Link) :
    ∀ (st : SearchState) (n : Node), n ∈ st.closed →
      ((links.foldl (relaxLink h start best) st).closed = st.closed ∧
       (links.foldl (relaxLink h start best) st).linkCosts n = st.linkCosts n ∧
       (links.foldl (relaxLink h start best) st).totalCosts n = st.totalCosts n ∧
       (links.foldl (relaxLink h start best) st).cameFrom n = st.cameFrom n ∧
       (n ∉ st.openSet → n ∉ (links.foldl (relaxLink h start best) st).openSet)) := by
  induction links with
  | nil => exact fun st n _ => ⟨rfl, rfl, rfl, rfl, fun h => h⟩
  | cons l ls ih =>
    intro st n hn
    obtain ⟨c1, c2, c3, c4, c5⟩ := relaxLink_frozen h start best hn (l := l)
    have hn' : n ∈ (relaxLink h start best st l).closed := c1 ▸ hn
    obtain ⟨d1, d2, d3, d4, d5⟩ := ih (relaxLink h start best st l) n hn'
    exact ⟨by rw [List.foldl_cons, d1, c1],
      by rw [List.foldl_cons, d2, c2],
      by rw [List.foldl_cons, d3, c3],
      by rw [List.foldl_cons, d4, c4],
      fun hno => by
        rw [List.foldl_cons]
        exact d5 (c5 hno)⟩

/-- C2: once a node is in the closed set, a loop iteration keeps it closed,
never re-adds it to the open set, and leaves its `linkCosts`, `totalCosts`
and `cameFrom` entries untouched — even when the iteration relaxes a link
pointing at it with a smaller candidate cost (that relaxation is skipped by
the `!closed.has(link.to)` guard).  Iterating this over the whole run gives
the claim for every execution of `findPath`. -/
theorem closed_node_frozen_step (calculateLinksForNode : Node → List Link)
    (calculateHeuristicCostToTraverseLink : Node → Node → Int)
    (start goal : Node) (st st' : SearchState) (n : Node)
    (hn : n ∈ st.closed)
    (hstep : stepSearch calculateLinksForNode calculateHeuristicCostToTraverseLink
      start goal st = .next st') :
    n ∈ st'.closed ∧ st'.linkCosts n = st.linkCosts n ∧
    st'.totalCosts n = st.totalCosts n ∧ st'.cameFrom n = st.cameFrom n ∧
    (n ∉ st.openSet → n ∉ st'.openSet) := by
  rcases hbest : findBest st.totalCosts st.openSet none with _ | best
  · rw [stepSearch_empty hbest] at hstep; cases hstep
  by_cases hgoal : goal = best
  · rcases hrec : reconstruct st.cameFrom (st.closed.length + 2) best with _ | p
    · rw [stepSearch_goal_stuck hbest hgoal hrec] at hstep; cases hstep
    · rw [stepSearch_goal hbest hgoal hrec] at hstep; cases hstep
  · rw [stepSearch_expand hbest hgoal] at hstep
    obtain ⟨c1, c2, c3, c4, c5⟩ :=
      foldRelax_frozen calculateHeuristicCostToTraverseLink start best
        (calculateLinksForNode best) st n hn
    cases hstep
    refine ⟨?_, c2, c3, c4, ?_⟩
    · simp only [c1]
      exact mem_setAdd_of_mem best hn
    · intro hno hmem
      exact c5 hno (List.mem_of_mem_erase hmem)

/-- Concrete state used by the C2 witness: node `z` is closed while `a` is
the only open node. -/
def frozenStW : SearchState :=
  { cameFrom := fun _ => none
    totalCosts := fun x => if x = "a" then some 0 else none
    linkCosts := fun x => if x = "a" then some 0 else none
    openSet := ["a"]
    closed := ["z"]
    iterations := 1 }

/-- C2 witness: applying the freeze theorem to a concrete step of the loop. -/
theorem closed_node_frozen_step_witness :
    "z" ∈ ({ frozenStW with closed := ["z", "a"], openSet := [], iterations := 2 }
        : SearchState).closed ∧
    ({ frozenStW with closed := ["z", "a"], openSet := [], iterations := 2 }
        : SearchState).linkCosts "z" = frozenStW.linkCosts "z" :=
  have h := closed_node_frozen_step (fun _ => []) defaultHeuristic "a" "b" frozenStW
    { frozenStW with closed := ["z", "a"], openSet := [], iterations := 2 } "z"
    (by decide) rfl
  ⟨h.1, h.2.1⟩

/-! Unconditional domain invariant: every open node has a recorded
`linkCosts` entry, and `totalCosts` and `cameFrom` entries exist wherever
`linkCosts` entries do.  This holds for arbitrary collaborators (even with
negative costs) because the three maps are always written together. -/

structure DomInv (st : SearchState) : Prop where
  open_lc : ∀ x ∈ st.openSet, (st.linkCosts x).isSome
  lc_tc : ∀ x, (st.linkCosts x).isSome → (st.totalCosts x).isSome
  lc_cf : ∀ x, (st.linkCosts x).isSome → (st.cameFrom x).isSome

theorem relaxCost_target_defined (h : Node → Node → Int) (start best : Node)
    (st : SearchState) (l : Link) :
    ((relaxCost h start best st l).linkCosts l.toNode).isSome := by
  rcases relaxCost_cases h start best st l with ⟨heq, g, hg, _⟩ | ⟨hlc, _, _, _⟩
  · rw [heq, hg]; rfl
  · rw [hlc, mapSet_same]; rfl

theorem relaxCost_lc_defined {st : SearchState} {l : Link} {x : Node}
    (h : Node → Node → Int) (start best : Node)
    (hx : (st.linkCosts x).isSome) :
    ((relaxCost h start best st l).linkCosts x).isSome := by
  by_cases he : x = l.toNode
  · exact he ▸ relaxCost_target_defined h start best st l
  · rw [(relaxCost_maps_other st l h start best he).1]
    exact hx

theorem relaxLink_DomInv {st : SearchState} {l : Link}
    (h : Node → Node → Int) (start best : Node) (hinv : DomInv st) :
    DomInv (relaxLink h start best st l) := by
  by_cases hc : l.toNode ∈ st.closed
  · rwa [relaxLink_of_closed h start best hc]
  · rw [relaxLink_of_not_closed h start best hc]
    refine ⟨?_, ?_, ?_⟩
    · intro x hx
      rcases mem_setAdd.mp hx with rfl | hx'
      · exact relaxCost_target_defined h start best st l
      · rw [relaxCost_openSet] at hx'
        exact relaxCost_lc_defined h start best (hinv.open_lc x hx')
    · intro x hx
      rcases relaxCost_cases h start best st l with ⟨heq, _⟩ | ⟨hlc, htc, _, _⟩
      · rw [heq] at hx ⊢
        exact hinv.lc_tc x hx
      · by_cases he : x = l.toNode
        · subst he; rw [htc, mapSet_same]; rfl
        · rw [htc, mapSet_other _ _ he]
          rw [hlc, mapSet_other _ _ he] at hx
          exact hinv.lc_tc x hx
    · intro x hx
      rcases relaxCost_cases h start best st l with ⟨heq, _⟩ | ⟨hlc, _, hcf, _⟩
      · rw [heq] at hx ⊢
        exact hinv.lc_cf x hx
      · by_cases he : x = l.toNode
        · subst he; rw [hcf, mapSet_same]; rfl
        · rw [hcf, mapSet_other _ _ he]
          rw [hlc, mapSet_other _ _ he] at hx
          exact hinv.lc_cf x hx

theorem foldRelax_DomInv (h : Node → Node → Int) (start best : Node) (links : List Link) :
    ∀ st : SearchState, DomInv st → DomInv (links.foldl (relaxLink h start best) st) := by
  induction links with
  | nil => exact fun st hs => hs
  | cons l ls ih =>
    intro st hs
    rw [List.foldl_cons]
    exact ih _ (relaxLink_DomInv h start best hs)

theorem step_DomInv {exp : Node → List Link} {h : Node → Node → Int}
    {start goal : Node} {st st' : SearchState}
    (hinv : DomInv st)
    (hstep : stepSearch exp h start goal st = .next st') : DomInv st' := by
  rcases hbest : findBest st.totalCosts st.openSet none with _ | best
  · rw [stepSearch_empty hbest] at hstep; cases hstep
  by_cases hgoal : goal = best
  · rcases hrec : reconstruct st.cameFrom (st.closed.length + 2) best with _ | p
    · rw [stepSearch_goal_stuck hbest hgoal hrec] at hstep; cases hstep
    · rw [stepSearch_goal hbest hgoal hrec] at hstep; cases hstep
  · rw [stepSearch_expand hbest hgoal] at hstep
    have hfold := foldRelax_DomInv h start best (exp best) st hinv
    cases hstep
    exact ⟨fun x hx => hfold.open_lc x (List.mem_of_mem_erase hx), hfold.lc_tc, hfold.lc_cf⟩

theorem initState_DomInv (start : Node) : DomInv (initState start) := by
  refine ⟨?_, ?_, ?_⟩ <;> intro x hx
  · rcases List.mem_singleton.mp hx with rfl
    simp [initState, mapSet]
  · by_cases he : x = start
    · subst he; simp [initState, mapSet]
    · simp [initState, mapSet, he] at hx
  · by_cases he : x = start
    · subst he; simp [initState, mapSet]
    · simp [initState, mapSet, he] at hx

theorem findPathLoop_succ (exp : Node → List Link) (h : Node → Node → Int)
    (start goal : Node) (fuel : Nat) (st : SearchState) :
    findPathLoop exp h start goal (fuel + 1) st =
      match stepSearch exp h start goal st with
      | .next st' => findPathLoop exp h start goal fuel st'
      | .out p => some p
      | .stuck => none := rfl

/-- General runner for one loop iteration, identical to `stepSearch` except
that the trace-back loop's fuel `rfuel` is an independent parameter instead
of the specialization `closed.length + 2`.  Since the source's trace-back
`for` loop is unbounded, this is the embedding that covers every terminating
execution of the source for arbitrary collaborators (honest or not): a run
that terminates in the source returns the same `Path` here once `fuel`
covers its loop iterations and `rfuel` the length of its trace-back. -/
def stepSearchR (calculateLinksForNode : Node → List Link)
    (calculateHeuristicCostToTraverseLink : Node → Node → Int)
    (start goal : Node) (rfuel : Nat) (st : SearchState) : StepR :=
  match findBest st.totalCosts st.openSet none with
  | none => .out { found := false, iterations := st.iterations, cost := none, path := none }
  | some best =>
    if goal = best then
      match reconstruct st.cameFrom rfuel best with
      | none => .stuck
      | some p =>
        .out { found := true, iterations := st.iterations
               cost := st.linkCosts best, path := some p }
    else
      let links := calculateLinksForNode best
      let st1 := links.foldl (relaxLink calculateHeuristicCostToTraverseLink start best) st
      .next { st1 with
              closed := setAdd st1.closed best
              openSet := st1.openSet.erase best
              iterations := st1.iterations + 1 }

/-- The bounded-trace-back step is the general step at its specialized fuel. -/
theorem stepSearch_eq_stepSearchR (exp : Node → List Link) (h : Node → Node → Int)
    (start goal : Node) (st : SearchState) :
    stepSearch exp h start goal st =
      stepSearchR exp h start goal (st.closed.length + 2) st := rfl

/-- Fuel-indexed iteration of the `while (true)` loop with independent
trace-back fuel. -/
def findPathLoopR (calculateLinksForNode : Node → List Link)
    (calculateHeuristicCostToTraverseLink : Node → Node → Int)
    (start goal : Node) (rfuel : Nat) : Nat → SearchState → Option Path
  | 0, _ => none
  | fuel + 1, st =>
    match stepSearchR calculateLinksForNode calculateHeuristicCostToTraverseLink
        start goal rfuel st with
    | .next st' =>
      findPathLoopR calculateLinksForNode calculateHeuristicCostToTraverseLink
        start goal rfuel fuel st'
    | .out p => some p
    | .stuck => none

/-- Embedding of `AStar.findPath(start, goal)` with both loops fueled
independently: every terminating source execution, for arbitrary
collaborators, is `findPathR … fuel rfuel = some p` for sufficient fuels. -/
def findPathR (calculateLinksForNode : Node → List Link)
    (calculateHeuristicCostToTraverseLink : Node → Node → Int)
    (start goal : Node) (fuel rfuel : Nat) : Option Path :=
  findPathLoopR calculateLinksForNode calculateHeuristicCostToTraverseLink start goal
    rfuel fuel (initState start)

theorem stepSearchR_empty {exp : Node → List Link} {h : Node → Node → Int}
    {start goal : Node} {rfuel : Nat} {st : SearchState}
    (hb : findBest st.totalCosts st.openSet none = none) :
    stepSearchR exp h start goal rfuel st =
      .out { found := false, iterations := st.iterations, cost := none, path := none } := by
  unfold stepSearchR
  rw [hb]

theorem stepSearchR_goal {exp : Node → List Link} {h : Node → Node → Int}
    {start goal : Node} {rfuel : Nat} {st : SearchState} {best : Node} {p : List Link}
    (hb : findBest st.totalCosts st.openSet none = some best)
    (hg : goal = best)
    (hr : reconstruct st.cameFrom rfuel best = some p) :
    stepSearchR exp h start goal rfuel st =
      .out { found := true, iterations := st.iterations
             cost := st.linkCosts best, path := some p } := by
  unfold stepSearchR
  rw [hb]
  dsimp only
  rw [if_pos hg, hr]

theorem stepSearchR_goal_stuck {exp : Node → List Link} {h : Node → Node → Int}
    {start goal : Node} {rfuel : Nat} {st : SearchState} {best : Node}
    (hb : findBest st.totalCosts st.openSet none = some best)
    (hg : goal = best)
    (hr : reconstruct st.cameFrom rfuel best = none) :
    stepSearchR exp h start goal rfuel st = .stuck := by
  unfold stepSearchR
  rw [hb]
  dsimp only
  rw [if_pos hg, hr]

theorem stepSearchR_expand {exp : Node → List Link} {h : Node → Node → Int}
    {start goal : Node} {rfuel : Nat} {st : SearchState} {best : Node}
    (hb : findBest st.totalCosts st.openSet none = some best)
    (hg : ¬ goal = best) :
    stepSearchR exp h start goal rfuel st =
      .next { (exp best).foldl (relaxLink h start best) st with
              closed := setAdd ((exp best).foldl (relaxLink h start best) st).closed best
              openSet := ((exp best).foldl (relaxLink h start best) st).openSet.erase best
              iterations := ((exp best).foldl (relaxLink h start best) st).iterations + 1 } := by
  unfold stepSearchR
  rw [hb]
  dsimp only
  rw [if_neg hg]

/-- A continuation step of the general runner is the same state the bounded
runner produces, so the unconditional invariants transfer. -/
theorem stepSearchR_next {exp : Node → List Link} {h : Node → Node → Int}
    {start goal : Node} {rfuel : Nat} {st st' : SearchState}
    (hstep : stepSearchR exp h start goal rfuel st = .next st') :
    stepSearch exp h start goal st = .next st' := by
  rcases hbest : findBest st.totalCosts st.openSet none with _ | best
  · rw [stepSearchR_empty hbest] at hstep; cases hstep
  by_cases hgoal : goal = best
  · rcases hrec : reconstruct st.cameFrom rfuel best with _ | p
    · rw [stepSearchR_goal_stuck hbest hgoal hrec] at hstep; cases hstep
    · rw [stepSearchR_goal hbest hgoal hrec] at hstep; cases hstep
  · rw [stepSearchR_expand hbest hgoal] at hstep
    cases hstep
    exact stepSearch_expand hbest hgoal

theorem findPathLoopR_succ (exp : Node → List Link) (h : Node → Node → Int)
    (start goal : Node) (rfuel fuel : Nat) (st : SearchState) :
    findPathLoopR exp h start goal rfuel (fuel + 1) st =
      match stepSearchR exp h start goal rfuel st with
      | .next st' => findPathLoopR exp h start goal rfuel fuel st'
      | .out p => some p
      | .stuck => none := rfl

theorem found_sep_aux {exp : Node → List Link} {h : Node → Node → Int}
    {start goal : Node} {rfuel : Nat} :
    ∀ (fuel : Nat) (st : SearchState) (p : Path), DomInv st →
      findPathLoopR exp h start goal rfuel fuel st = some p →
      (p.found = true ∧ p.cost.isSome ∧ p.path.isSome) ∨
      (p.found = false ∧ p.cost = none ∧ p.path = none) := by
  intro fuel
  induction fuel with
  | zero => intro st p _ hrun; cases hrun
  | succ n ih =>
    intro st p hinv hrun
    rw [findPathLoopR_succ] at hrun
    rcases hbest : findBest st.totalCosts st.openSet none with _ | best
    · rw [stepSearchR_empty hbest] at hrun
      dsimp only at hrun
      cases hrun
      exact Or.inr ⟨rfl, rfl, rfl⟩
    · by_cases hgoal : goal = best
      · rcases hrec : reconstruct st.cameFrom rfuel best with _ | pl
        · rw [stepSearchR_goal_stuck hbest hgoal hrec] at hrun
          cases hrun
        · rw [stepSearchR_goal hbest hgoal hrec] at hrun
          dsimp only at hrun
          cases hrun
          have hmem : best ∈ st.openSet := findBest_none_mem hbest
          exact Or.inl ⟨rfl, hinv.open_lc best hmem, rfl⟩
      · rw [stepSearchR_expand hbest hgoal] at hrun
        dsimp only at hrun
        exact ih _ p
          (step_DomInv hinv
            (@stepSearchR_next exp h start goal rfuel st _
              (stepSearchR_expand hbest hgoal))) hrun

/-- C4: for every pair of collaborators (honest or not) and every terminating
invocation — modelled by the general runner `findPathR`, whose unbounded
trace-back fuel makes every terminating source execution return its `Path`
here — a returned result carries `cost` and `path` exactly when `found` is
true: a `found = true` result always has both fields present, and a
`found = false` result has both fields absent. -/
theorem found_separates_cost_path (calculateLinksForNode : Node → List Link)
    (calculateHeuristicCostToTraverseLink : Node → Node → Int)
    (start goal : Node) (fuel rfuel : Nat) (p : Path)
    (hrun : findPathR calculateLinksForNode calculateHeuristicCostToTraverseLink
      start goal fuel rfuel = some p) :
    (p.found = true ∧ p.cost.isSome ∧ p.path.isSome) ∨
    (p.found = false ∧ p.cost = none ∧ p.path = none) :=
  found_sep_aux fuel (initState start) p (initState_DomInv start) hrun

/-- Dishonest expander (its links do not leave the queried node): the source
still terminates on it, returning the whole relaxed chain; used to witness
that C4 covers arbitrary collaborators. -/
def expDis : Node → List Link := fun n =>
  if n = "s" then [⟨"s", "x1", 5⟩, ⟨"x1", "x2", 5⟩, ⟨"x2", "x3", 5⟩, ⟨"x3", "g", 1⟩]
  else []

/-- C4 witness: a successful run on a dishonest expander (trace-back longer
than `closed.length + 2`) carries both fields, and a failed run carries
neither. -/
theorem found_separates_cost_path_witness :
    (((Path.mk true 2 (some 1)
        (some [⟨"s", "x1", 5⟩, ⟨"x1", "x2", 5⟩, ⟨"x2", "x3", 5⟩, ⟨"x3", "g", 1⟩])).found
          = true ∧
      (Path.mk true 2 (some 1)
        (some [⟨"s", "x1", 5⟩, ⟨"x1", "x2", 5⟩, ⟨"x2", "x3", 5⟩, ⟨"x3", "g", 1⟩])).cost.isSome ∧
      (Path.mk true 2 (some 1)
        (some [⟨"s", "x1", 5⟩, ⟨"x1", "x2", 5⟩, ⟨"x2", "x3", 5⟩, ⟨"x3", "g", 1⟩])).path.isSome) ∨
     ((Path.mk true 2 (some 1)
        (some [⟨"s", "x1", 5⟩, ⟨"x1", "x2", 5⟩, ⟨"x2", "x3", 5⟩, ⟨"x3", "g", 1⟩])).found
          = false ∧
      (Path.mk true 2 (some 1)
        (some [⟨"s", "x1", 5⟩, ⟨"x1", "x2", 5⟩, ⟨"x2", "x3", 5⟩, ⟨"x3", "g", 1⟩])).cost
          = none ∧
      (Path.mk true 2 (some 1)
        (some [⟨"s", "x1", 5⟩, ⟨"x1", "x2", 5⟩, ⟨"x2", "x3", 5⟩, ⟨"x3", "g", 1⟩])).path
          = none)) ∧
    (((Path.mk false 2 none none).found = true ∧
      (Path.mk false 2 none none).cost.isSome ∧
      (Path.mk false 2 none none).path.isSome) ∨
     ((Path.mk false 2 none none).found = false ∧
      (Path.mk false 2 none none).cost = none ∧
      (Path.mk false 2 none none).path = none)) :=
  ⟨found_separates_cost_path expDis defaultHeuristic "s" "g" 5 6
      (Path.mk true 2 (some 1)
        (some [⟨"s", "x1", 5⟩, ⟨"x1", "x2", 5⟩, ⟨"x2", "x3", 5⟩, ⟨"x3", "g", 1⟩]))
      (by decide),
   found_separates_cost_path (fun _ => []) defaultHeuristic "a" "b" 2 5
      (Path.mk false 2 none none) (by decide)⟩

/-! Chain invariant.  Under an honest expander (links leave the queried
node) with non-negative costs, and for an arbitrary heuristic, the following
holds at every loop head; it ties `cameFrom` chains to the order of the
closed list, which is what makes the trace-back reach `start`. -/

structure ChainInv (exp : Node → List Link) (start : Node) (st : SearchState) : Prop where
  nodup : st.openSet.Nodup
  disj : ∀ x ∈ st.openSet, x ∉ st.closed
  open_lc : ∀ x ∈ st.openSet, (st.linkCosts x).isSome
  closed_lc : ∀ x ∈ st.closed, (st.linkCosts x).isSome
  lc_tc : ∀ x, (st.linkCosts x).isSome → (st.totalCosts x).isSome
  lc_cf : ∀ x, (st.linkCosts x).isSome → (st.cameFrom x).isSome
  reached : ∀ x, (st.linkCosts x).isSome → x ∈ st.openSet ∨ x ∈ st.closed
  g_start : st.linkCosts start = some 0
  g_nonneg : ∀ x g, st.linkCosts x = some g → 0 ≤ g
  start_mem : start ∈ st.openSet ∨ start ∈ st.closed
  cf_start : st.cameFrom start = some none
  cf_none : ∀ x, st.cameFrom x = some none → x = start
  cf_link : ∀ x l, st.cameFrom x = some (some l) → l.toNode = x ∧ l ∈ exp l.fromNode ∧
    l.fromNode ∈ st.closed ∧
    ∃ gx gf, st.linkCosts x = some gx ∧ st.linkCosts l.fromNode = some gf ∧ gx = gf + l.cost
  cf_idx : ∀ x l, st.cameFrom x = some (some l) → x ∈ st.closed →
    idxIn st.closed l.fromNode < idxIn st.closed x

/-- Mid-expansion version of `ChainInv`, holding while the links of `best`
are folded over the state: the closed set is pinned to its loop-head value
`closed0`, the entries of `best` are frozen, and fresh `cameFrom` entries may
point to `best` (which becomes closed at the end of the iteration). -/
structure MidInv (exp : Node → List Link) (start best : Node) (gbest : Int)
    (closed0 : List Node) (st : SearchState) : Prop where
  nodup : st.openSet.Nodup
  disj : ∀ x ∈ st.openSet, x ∉ closed0
  closed_eq : st.closed = closed0
  open_lc : ∀ x ∈ st.openSet, (st.linkCosts x).isSome
  closed_lc : ∀ x ∈ closed0, (st.linkCosts x).isSome
  lc_tc : ∀ x, (st.linkCosts x).isSome → (st.totalCosts x).isSome
  lc_cf : ∀ x, (st.linkCosts x).isSome → (st.cameFrom x).isSome
  reached : ∀ x, (st.linkCosts x).isSome → x ∈ st.openSet ∨ x ∈ closed0
  g_start : st.linkCosts start = some 0
  g_nonneg : ∀ x g, st.linkCosts x = some g → 0 ≤ g
  start_mem : start ∈ st.openSet ∨ start ∈ closed0
  best_lc : st.linkCosts best = some gbest
  best_open : best ∈ st.openSet
  cf_start : st.cameFrom start = some none
  cf_none : ∀ x, st.cameFrom x = some none → x = start
  cf_link : ∀ x l, st.cameFrom x = some (some l) → l.toNode = x ∧ l ∈ exp l.fromNode ∧
    (l.fromNode ∈ closed0 ∨ l.fromNode = best) ∧
    ∃ gx gf, st.linkCosts x = some gx ∧ st.linkCosts l.fromNode = some gf ∧ gx = gf + l.cost
  cf_idx : ∀ x l, st.cameFrom x = some (some l) → x ∈ closed0 →
    idxIn closed0 l.fromNode < idxIn closed0 x
  cf_best : ∀ l, st.cameFrom best = some (some l) → l.fromNode ∈ closed0

theorem relaxLink_MidInv {exp : Node → List Link} {start best : Node} {gbest : Int}
    {closed0 : List Node} {st : SearchState} {l : Link} (h : Node → Node → Int)
    (hmid : MidInv exp start best gbest closed0 st)
    (hl_mem : l ∈ exp best) (hl_from : l.fromNode = best) (hl_nonneg : 0 ≤ l.cost) :
    MidInv exp start best gbest closed0 (relaxLink h start best st l) := by
  by_cases hc : l.toNode ∈ st.closed
  · rwa [relaxLink_of_closed h start best hc]
  · have hc0 : l.toNode ∉ closed0 := hmid.closed_eq ▸ hc
    rw [relaxLink_of_not_closed h start best hc]
    have hopen : (relaxCost h start best st l).openSet = st.openSet :=
      relaxCost_openSet h start best st l
    have hclosed : (relaxCost h start best st l).closed = st.closed :=
      relaxCost_closed h start best st l
    rcases relaxCost_cases h start best st l with
      ⟨heq, g, hg, _⟩ | ⟨hlc, htc, hcf, hcond⟩
    · -- no update: only the open set may grow by the (already recorded) target
      rw [heq]
      refine ⟨setAdd_nodup hmid.nodup, ?_, hmid.closed_eq, ?_, hmid.closed_lc,
        hmid.lc_tc, hmid.lc_cf, ?_, hmid.g_start, hmid.g_nonneg, ?_, hmid.best_lc,
        mem_setAdd_of_mem _ hmid.best_open, hmid.cf_start, hmid.cf_none, ?_,
        hmid.cf_idx, hmid.cf_best⟩
      · intro x hx
        rcases mem_setAdd.mp hx with rfl | hx'
        · exact hc0
        · exact hmid.disj x hx'
      · intro x hx
        rcases mem_setAdd.mp hx with rfl | hx'
        · rw [hg]; rfl
        · exact hmid.open_lc x hx'
      · intro x hx
        rcases hmid.reached x hx with hx' | hx'
        · exact Or.inl (mem_setAdd_of_mem _ hx')
        · exact Or.inr hx'
      · rcases hmid.start_mem with hs | hs
        · exact Or.inl (mem_setAdd_of_mem _ hs)
        · exact Or.inr hs
      · intro x lk hcfx
        obtain ⟨h1, h2, h3, h4⟩ := hmid.cf_link x lk hcfx
        exact ⟨h1, h2, h3, h4⟩
    · -- update branch: all three maps are rewritten at the target node
      have hgD : (st.linkCosts best).getD 0 = gbest := by rw [hmid.best_lc]; rfl
      have hv : 0 ≤ gbest + l.cost := by
        have := hmid.g_nonneg best gbest hmid.best_lc
        omega
      -- the target differs from best and from start (their values cannot drop)
      have ht_best : l.toNode ≠ best := by
        intro he
        rcases hcond with hnone | ⟨g, hg, hlt⟩
        · rw [he, hmid.best_lc] at hnone; cases hnone
        · rw [he, hmid.best_lc] at hg
          cases hg
          rw [hgD] at hlt
          omega
      have ht_start : l.toNode ≠ start := by
        intro he
        rcases hcond with hnone | ⟨g, hg, hlt⟩
        · rw [he, hmid.g_start] at hnone; cases hnone
        · rw [he, hmid.g_start] at hg
          cases hg
          rw [hgD] at hlt
          omega
      rw [hgD] at hlc htc
      have hstate : (⟨(relaxCost h start best st l).cameFrom,
          (relaxCost h start best st l).totalCosts,
          (relaxCost h start best st l).linkCosts,
          setAdd (relaxCost h start best st l).openSet l.toNode,
          (relaxCost h start best st l).closed,
          (relaxCost h start best st l).iterations⟩ : SearchState) =
          ⟨mapSet st.cameFrom l.toNode (some l),
           mapSet st.totalCosts l.toNode (gbest + l.cost + h start l.toNode),
           mapSet st.linkCosts l.toNode (gbest + l.cost),
           setAdd st.openSet l.toNode, st.closed, st.iterations⟩ := by
        refine SearchState.ext ?_ ?_ ?_ ?_ ?_ ?_
        · exact hcf
        · exact htc
        · exact hlc
        · rw [hopen]
        · exact hclosed
        · exact relaxCost_iterations h start best st l
      rw [show ({ relaxCost h start best st l with
            openSet := setAdd (relaxCost h start best st l).openSet l.toNode } : SearchState) =
          (⟨mapSet st.cameFrom l.toNode (some l),
            mapSet st.totalCosts l.toNode (gbest + l.cost + h start l.toNode),
            mapSet st.linkCosts l.toNode (gbest + l.cost),
            setAdd st.openSet l.toNode, st.closed, st.iterations⟩ : SearchState) from hstate]
      constructor <;> dsimp only
      · -- nodup
        exact setAdd_nodup hmid.nodup
      · -- disj
        intro x hx
        rcases mem_setAdd.mp hx with rfl | hx'
        · exact hc0
        · exact hmid.disj x hx'
      · -- closed_eq
        exact hmid.closed_eq
      · -- open_lc
        intro x hx
        rcases mem_setAdd.mp hx with rfl | hx'
        · rw [mapSet_same]; rfl
        · by_cases he : x = l.toNode
          · subst he; rw [mapSet_same]; rfl
          · rw [mapSet_other _ _ he]
            exact hmid.open_lc x hx'
      · -- closed_lc
        intro x hx
        have he : x ≠ l.toNode := fun h' => hc0 (h' ▸ hx)
        rw [mapSet_other _ _ he]
        exact hmid.closed_lc x hx
      · -- lc_tc
        intro x hx
        by_cases he : x = l.toNode
        · subst he; rw [mapSet_same]; rfl
        · rw [mapSet_other _ _ he]
          rw [mapSet_other _ _ he] at hx
          exact hmid.lc_tc x hx
      · -- lc_cf
        intro x hx
        by_cases he : x = l.toNode
        · subst he; rw [mapSet_same]; rfl
        · rw [mapSet_other _ _ he]
          rw [mapSet_other _ _ he] at hx
          exact hmid.lc_cf x hx
      · -- reached
        intro x hx
        by_cases he : x = l.toNode
        · subst he
          exact Or.inl (mem_setAdd_self _ _)
        · rw [mapSet_other _ _ he] at hx
          rcases hmid.reached x hx with hx' | hx'
          · exact Or.inl (mem_setAdd_of_mem _ hx')
          · exact Or.inr hx'
      · -- g_start
        rw [mapSet_other _ _ (Ne.symm ht_start)]
        exact hmid.g_start
      · -- g_nonneg
        intro x g hx
        by_cases he : x = l.toNode
        · subst he; rw [mapSet_same] at hx; cases hx; exact hv
        · rw [mapSet_other _ _ he] at hx
          exact hmid.g_nonneg x g hx
      · -- start_mem
        rcases hmid.start_mem with hs | hs
        · exact Or.inl (mem_setAdd_of_mem _ hs)
        · exact Or.inr hs
      · -- best_lc
        rw [mapSet_other _ _ (Ne.symm ht_best)]
        exact hmid.best_lc
      · -- best_open
        exact mem_setAdd_of_mem _ hmid.best_open
      · -- cf_start
        rw [mapSet_other _ _ (Ne.symm ht_start)]
        exact hmid.cf_start
      · -- cf_none
        intro x hx
        by_cases he : x = l.toNode
        · subst he; rw [mapSet_same] at hx; cases hx
        · rw [mapSet_other _ _ he] at hx
          exact hmid.cf_none x hx
      · -- cf_link
        intro x lk hx
        by_cases he : x = l.toNode
        · subst he
          rw [mapSet_same] at hx
          have hlk : lk = l := by
            injection hx with hx1
            injection hx1 with hx2
            exact hx2.symm
          subst hlk
          refine ⟨rfl, by rw [hl_from]; exact hl_mem, Or.inr hl_from,
            gbest + lk.cost, gbest, ?_, ?_, rfl⟩
          · rw [mapSet_same]
          · rw [hl_from, mapSet_other _ _ (Ne.symm ht_best)]
            exact hmid.best_lc
        · rw [mapSet_other _ _ he] at hx
          obtain ⟨h1, h2, h3, gx, gf, h4, h5, h6⟩ := hmid.cf_link x lk hx
          have hfne : lk.fromNode ≠ l.toNode := by
            rcases h3 with h3' | h3'
            · exact fun h' => hc0 (h' ▸ h3')
            · exact fun h' => ht_best (h'.symm.trans h3')
          refine ⟨h1, h2, h3, gx, gf, ?_, ?_, h6⟩
          · rw [mapSet_other _ _ he]; exact h4
          · rw [mapSet_other _ _ hfne]; exact h5
      · -- cf_idx
        intro x lk hx hxc
        have he : x ≠ l.toNode := fun h' => hc0 (h' ▸ hxc)
        rw [mapSet_other _ _ he] at hx
        exact hmid.cf_idx x lk hx hxc
      · -- cf_best
        intro lk hx
        rw [mapSet_other _ _ (Ne.symm ht_best)] at hx
        exact hmid.cf_best lk hx

theorem foldRelax_MidInv {exp : Node → List Link} {start best : Node} {gbest : Int}
    {closed0 : List Node} (h : Node → Node → Int) (links : List Link)
    (hgood : ∀ l ∈ links, l ∈ exp best ∧ l.fromNode = best ∧ 0 ≤ l.cost) :
    ∀ st : SearchState, MidInv exp start best gbest closed0 st →
      MidInv exp start best gbest closed0 (links.foldl (relaxLink h start best) st) := by
  induction links with
  | nil => exact fun st hs => hs
  | cons l ls ih =>
    intro st hs
    rw [List.foldl_cons]
    obtain ⟨h1, h2, h3⟩ := hgood l (List.mem_cons_self _ _)
    exact ih (fun m hm => hgood m (List.mem_cons_of_mem _ hm)) _
      (relaxLink_MidInv h hs h1 h2 h3)

theorem ChainInv_to_MidInv {exp : Node → List Link} {start : Node} {st : SearchState}
    {best : Node}
    (hinv : ChainInv exp start st)
    (hb : findBest st.totalCosts st.openSet none = some best) :
    ∃ gbest, st.linkCosts best = some gbest ∧
      MidInv exp start best gbest st.closed st := by
  have hmem : best ∈ st.openSet := findBest_none_mem hb
  have hsome : (st.linkCosts best).isSome := hinv.open_lc best hmem
  rcases hlc : st.linkCosts best with _ | gbest
  · rw [hlc] at hsome; cases hsome
  refine ⟨gbest, rfl, ?_⟩
  refine ⟨hinv.nodup, hinv.disj, rfl, hinv.open_lc, hinv.closed_lc, hinv.lc_tc, hinv.lc_cf,
    hinv.reached, hinv.g_start, hinv.g_nonneg, hinv.start_mem, hlc, hmem,
    hinv.cf_start, hinv.cf_none, ?_, hinv.cf_idx, ?_⟩
  · intro x l hx
    obtain ⟨h1, h2, h3, h4⟩ := hinv.cf_link x l hx
    exact ⟨h1, h2, Or.inl h3, h4⟩
  · intro l hx
    exact (hinv.cf_link best l hx).2.2.1

theorem MidInv_close {exp : Node → List Link} {start best : Node} {gbest : Int}
    {closed0 : List Node} {st1 : SearchState}
    (hmid : MidInv exp start best gbest closed0 st1) :
    ChainInv exp start
      { st1 with closed := setAdd st1.closed best
                 openSet := st1.openSet.erase best
                 iterations := st1.iterations + 1 } := by
  have hbnotc : best ∉ closed0 := hmid.disj best hmid.best_open
  have hclosed2 : setAdd st1.closed best = closed0 ++ [best] := by
    rw [hmid.closed_eq, setAdd_of_not_mem hbnotc]
  have hmem_closed2 : ∀ x, x ∈ setAdd st1.closed best ↔ x ∈ closed0 ∨ x = best := by
    intro x
    rw [hclosed2]
    simp [List.mem_append, List.mem_singleton]
  have hmem_erase : ∀ x, x ∈ st1.openSet.erase best ↔ x ≠ best ∧ x ∈ st1.openSet := by
    intro x
    exact hmid.nodup.mem_erase_iff
  constructor <;> dsimp only
  · -- nodup
    exact hmid.nodup.erase best
  · -- disj
    intro x hx
    obtain ⟨hne, hx'⟩ := (hmem_erase x).mp hx
    rw [hmem_closed2]
    rintro (hc | rfl)
    · exact hmid.disj x hx' hc
    · exact hne rfl
  · -- open_lc
    intro x hx
    exact hmid.open_lc x ((hmem_erase x).mp hx).2
  · -- closed_lc
    intro x hx
    rcases (hmem_closed2 x).mp hx with hc | rfl
    · exact hmid.closed_lc x hc
    · rw [hmid.best_lc]; rfl
  · -- lc_tc
    exact hmid.lc_tc
  · -- lc_cf
    exact hmid.lc_cf
  · -- reached
    intro x hx
    rcases hmid.reached x hx with hx' | hx'
    · by_cases he : x = best
      · exact Or.inr ((hmem_closed2 x).mpr (Or.inr he))
      · exact Or.inl ((hmem_erase x).mpr ⟨he, hx'⟩)
    · exact Or.inr ((hmem_closed2 x).mpr (Or.inl hx'))
  · -- g_start
    exact hmid.g_start
  · -- g_nonneg
    exact hmid.g_nonneg
  · -- start_mem
    rcases hmid.start_mem with hs | hs
    · by_cases he : start = best
      · exact Or.inr ((hmem_closed2 start).mpr (Or.inr he))
      · exact Or.inl ((hmem_erase start).mpr ⟨he, hs⟩)
    · exact Or.inr ((hmem_closed2 start).mpr (Or.inl hs))
  · -- cf_start
    exact hmid.cf_start
  · -- cf_none
    exact hmid.cf_none
  · -- cf_link
    intro x l hx
    obtain ⟨h1, h2, h3, h4⟩ := hmid.cf_link x l hx
    refine ⟨h1, h2, ?_, h4⟩
    rw [hmem_closed2]
    rcases h3 with h3' | h3'
    · exact Or.inl h3'
    · exact Or.inr h3'
  · -- cf_idx
    intro x l hx hxc
    rw [hclosed2]
    rcases (hmem_closed2 x).mp hxc with hc | rfl
    · have hidx := hmid.cf_idx x l hx hc
      have hxlt : idxIn closed0 x < closed0.length := idxIn_lt_length hc
      have hfmem : l.fromNode ∈ closed0 := mem_of_idxIn_lt_length (by omega)
      rw [idxIn_append_of_mem _ hfmem, idxIn_append_of_mem _ hc]
      exact hidx
    · have hfmem : l.fromNode ∈ closed0 := hmid.cf_best l hx
      rw [idxIn_append_of_mem _ hfmem, idxIn_append_self hbnotc]
      exact idxIn_lt_length hfmem

theorem initState_ChainInv (exp : Node → List Link) (start : Node) :
    ChainInv exp start (initState start) := by
  have hlc : ∀ x, (initState start).linkCosts x = if x = start then some 0 else none := by
    intro x
    by_cases he : x = start
    · subst he; simp [initState, mapSet]
    · simp [initState, mapSet, he]
  have hcf : ∀ x, (initState start).cameFrom x = if x = start then some none else none := by
    intro x
    by_cases he : x = start
    · subst he; simp [initState, mapSet]
    · simp [initState, mapSet, he]
  constructor <;> dsimp only
  · -- nodup
    simp [initState]
  · -- disj
    intro x hx
    simp [initState]
  · -- open_lc
    intro x hx
    rcases List.mem_singleton.mp hx with rfl
    rw [hlc, if_pos rfl]
    rfl
  · -- closed_lc
    intro x hx
    simp [initState] at hx
  · -- lc_tc
    intro x hx
    rw [hlc] at hx
    by_cases he : x = start
    · subst he; simp [initState, mapSet]
    · rw [if_neg he] at hx; cases hx
  · -- lc_cf
    intro x hx
    rw [hlc] at hx
    by_cases he : x = start
    · subst he
      rw [hcf, if_pos rfl]
      rfl
    · rw [if_neg he] at hx; cases hx
  · -- reached
    intro x hx
    rw [hlc] at hx
    by_cases he : x = start
    · subst he
      exact Or.inl (by simp [initState])
    · rw [if_neg he] at hx; cases hx
  · -- g_start
    rw [hlc, if_pos rfl]
  · -- g_nonneg
    intro x g hx
    rw [hlc] at hx
    by_cases he : x = start
    · rw [if_pos he] at hx; cases hx; omega
    · rw [if_neg he] at hx; cases hx
  · -- start_mem
    exact Or.inl (by simp [initState])
  · -- cf_start
    rw [hcf, if_pos rfl]
  · -- cf_none
    intro x hx
    rw [hcf] at hx
    by_cases he : x = start
    · exact he
    · rw [if_neg he] at hx; cases hx
  · -- cf_link
    intro x l hx
    rw [hcf] at hx
    by_cases he : x = start
    · rw [if_pos he] at hx; cases hx
    · rw [if_neg he] at hx; cases hx
  · -- cf_idx
    intro x l hx hxc
    simp [initState] at hxc

/-- Trace-back success for closed nodes: the `cameFrom` chain of a closed
node descends strictly in the closed list, so it reaches the `null` entry of
`start`, and the reconstructed link sequence is a genuine path of the graph
whose cumulative cost is the node's recorded `linkCosts` entry. -/
theorem recon_closed {exp : Node → List Link} {start : Node} {st : SearchState}
    (hinv : ChainInv exp start st) :
    ∀ (n : Nat) (x : Node), x ∈ st.closed → idxIn st.closed x < n →
      ∃ p, reconstruct st.cameFrom (n + 1) x = some p ∧ IsPath exp start p x ∧
        ∀ gx, st.linkCosts x = some gx → pathCost p = gx := by
  intro n
  induction n with
  | zero => intro x _ h; omega
  | succ n ih =>
    intro x hx hidx
    have hcf_some : (st.cameFrom x).isSome := hinv.lc_cf x (hinv.closed_lc x hx)
    rcases hcf : st.cameFrom x with _ | ol
    · rw [hcf] at hcf_some; cases hcf_some
    rcases ol with _ | l
    · have hxs : x = start := hinv.cf_none x hcf
      refine ⟨[], reconstruct_succ_null hcf, hxs.symm, ?_⟩
      intro gx hgx
      subst hxs
      rw [hinv.g_start] at hgx
      cases hgx
      rfl
    · obtain ⟨h1, h2, h3, gx0, gf, h4, h5, h6⟩ := hinv.cf_link x l hcf
      have hidx2 := hinv.cf_idx x l hcf hx
      obtain ⟨p', hp', hpath', hcost'⟩ := ih l.fromNode h3 (by omega)
      refine ⟨p' ++ [l], ?_, ?_, ?_⟩
      · rw [reconstruct_succ_link hcf, hp']
      · have hap := IsPath_append hpath' rfl h2
        rwa [h1] at hap
      · intro gx hgx
        rw [h4] at hgx
        cases hgx
        rw [pathCost_append, hcost' gf h5]
        omega

/-- Trace-back success for any reached node (in particular for the goal node
when it is popped from the open set), at the fuel used by `stepSearch`. -/
theorem recon_reached {exp : Node → List Link} {start : Node} {st : SearchState}
    (hinv : ChainInv exp start st) :
    ∀ x, (st.linkCosts x).isSome →
      ∃ p, reconstruct st.cameFrom (st.closed.length + 2) x = some p ∧
        IsPath exp start p x ∧ ∀ gx, st.linkCosts x = some gx → pathCost p = gx := by
  intro x hx
  rcases hcf : st.cameFrom x with _ | ol
  · have hs := hinv.lc_cf x hx; rw [hcf] at hs; cases hs
  rcases ol with _ | l
  · have hxs : x = start := hinv.cf_none x hcf
    refine ⟨[], reconstruct_succ_null hcf, hxs.symm, ?_⟩
    intro gx hgx
    subst hxs
    rw [hinv.g_start] at hgx
    cases hgx
    rfl
  · obtain ⟨h1, h2, h3, gx0, gf, h4, h5, h6⟩ := hinv.cf_link x l hcf
    obtain ⟨p', hp', hpath', hcost'⟩ :=
      recon_closed hinv st.closed.length l.fromNode h3 (idxIn_lt_length h3)
    refine ⟨p' ++ [l], ?_, ?_, ?_⟩
    · rw [show st.closed.length + 2 = (st.closed.length + 1) + 1 from rfl,
        reconstruct_succ_link hcf, hp']
    · have hap := IsPath_append hpath' rfl h2
      rwa [h1] at hap
    · intro gx hgx
      rw [h4] at hgx
      cases hgx
      rw [pathCost_append, hcost' gf h5]
      omega

/-- One expansion step preserves the chain invariant (honest expander,
non-negative costs, arbitrary heuristic). -/
theorem step_ChainInv {exp : Node → List Link} {h : Node → Node → Int}
    {start goal : Node} {st st' : SearchState}
    (Hexp : ∀ n l, l ∈ exp n → l.fromNode = n ∧ 0 ≤ l.cost)
    (hinv : ChainInv exp start st)
    (hstep : stepSearch exp h start goal st = .next st') : ChainInv exp start st' := by
  rcases hbest : findBest st.totalCosts st.openSet none with _ | best
  · rw [stepSearch_empty hbest] at hstep; cases hstep
  by_cases hgoal : goal = best
  · rcases hrec : reconstruct st.cameFrom (st.closed.length + 2) best with _ | p
    · rw [stepSearch_goal_stuck hbest hgoal hrec] at hstep; cases hstep
    · rw [stepSearch_goal hbest hgoal hrec] at hstep; cases hstep
  · rw [stepSearch_expand hbest hgoal] at hstep
    obtain ⟨gbest, hglc, hmid⟩ := ChainInv_to_MidInv hinv hbest
    have hmid' := foldRelax_MidInv h (exp best)
      (fun l hl => ⟨hl, (Hexp best l hl).1, (Hexp best l hl).2⟩) st hmid
    cases hstep
    exact MidInv_close hmid'

/-- A loop iteration from a chain-invariant state never gets stuck: when the
goal is popped, the trace-back succeeds within the fuel `closed.length + 2`. -/
theorem step_not_stuck {exp : Node → List Link} {h : Node → Node → Int}
    {start goal : Node} {st : SearchState}
    (hinv : ChainInv exp start st) :
    stepSearch exp h start goal st ≠ .stuck := by
  intro hstep
  rcases hbest : findBest st.totalCosts st.openSet none with _ | best
  · rw [stepSearch_empty hbest] at hstep; cases hstep
  by_cases hgoal : goal = best
  · have hmem : best ∈ st.openSet := findBest_none_mem hbest
    obtain ⟨p, hp, _, _⟩ := recon_reached hinv best (hinv.open_lc best hmem)
    rw [stepSearch_goal hbest hgoal hp] at hstep
    cases hstep
  · rw [stepSearch_expand hbest hgoal] at hstep
    cases hstep

/-! Dijkstra layer: with the default zero heuristic, `totalCosts` coincides
with `linkCosts`, closed nodes carry values below all open values, and every
closed node's links are fully relaxed.  Together with the chain invariant
this yields optimality of the returned cost. -/

structure DijkInv (exp : Node → List Link) (start : Node) (st : SearchState) : Prop where
  chain : ChainInv exp start st
  tc_eq : st.totalCosts = st.linkCosts
  closed_le_open : ∀ u ∈ st.closed, ∀ v ∈ st.openSet, ∀ gu gv,
    st.linkCosts u = some gu → st.linkCosts v = some gv → gu ≤ gv
  closed_relaxed : ∀ u ∈ st.closed, ∀ l ∈ exp u, ∀ gu, st.linkCosts u = some gu →
    ∃ gt, st.linkCosts l.toNode = some gt ∧ gt ≤ gu + l.cost

structure DijkMidInv (exp : Node → List Link) (start best : Node) (gbest : Int)
    (closed0 : List Node) (st : SearchState) : Prop where
  mid : MidInv exp start best gbest closed0 st
  tc_eq : st.totalCosts = st.linkCosts
  open_ge : ∀ v ∈ st.openSet, ∀ gv, st.linkCosts v = some gv → gbest ≤ gv
  closed_le : ∀ u ∈ closed0, ∀ gu, st.linkCosts u = some gu → gu ≤ gbest
  closed_relaxed : ∀ u ∈ closed0, ∀ l ∈ exp u, ∀ gu, st.linkCosts u = some gu →
    ∃ gt, st.linkCosts l.toNode = some gt ∧ gt ≤ gu + l.cost

/-- Relaxation never increases a recorded cost. -/
theorem relaxLink_lc_le (h : Node → Node → Int) (start best : Node)
    (st : SearchState) (l : Link) :
    ∀ x g, st.linkCosts x = some g →
      ∃ g', (relaxLink h start best st l).linkCosts x = some g' ∧ g' ≤ g := by
  intro x g hg
  by_cases hc : l.toNode ∈ st.closed
  · rw [relaxLink_of_closed h start best hc]
    exact ⟨g, hg, le_refl g⟩
  · rw [relaxLink_of_not_closed h start best hc]
    rcases relaxCost_cases h start best st l with ⟨heq, _⟩ | ⟨hlc, _, _, hcond⟩
    · rw [heq]
      exact ⟨g, hg, le_refl g⟩
    · show ∃ g', (relaxCost h start best st l).linkCosts x = some g' ∧ g' ≤ g
      rw [hlc]
      by_cases he : x = l.toNode
      · subst he
        rw [mapSet_same]
        refine ⟨_, rfl, ?_⟩
        rcases hcond with hnone | ⟨g0, hg0, hlt⟩
        · rw [hg] at hnone; cases hnone
        · rw [hg] at hg0
          cases hg0
          omega
      · rw [mapSet_other _ _ he]
        exact ⟨g, hg, le_refl g⟩

theorem foldRelax_lc_le (h : Node → Node → Int) (start best : Node) (links : List Link) :
    ∀ (st : SearchState) (x : Node) (g : Int), st.linkCosts x = some g →
      ∃ g', (links.foldl (relaxLink h start best) st).linkCosts x = some g' ∧ g' ≤ g := by
  induction links with
  | nil => exact fun st x g hg => ⟨g, hg, le_refl g⟩
  | cons l ls ih =>
    intro st x g hg
    obtain ⟨g1, hg1, hle1⟩ := relaxLink_lc_le h start best st l x g hg
    obtain ⟨g2, hg2, hle2⟩ := ih (relaxLink h start best st l) x g1 hg1
    exact ⟨g2, by rw [List.foldl_cons]; exact hg2, le_trans hle2 hle1⟩

theorem relaxLink_DijkMidInv {exp : Node → List Link} {start best : Node} {gbest : Int}
    {closed0 : List Node} {st : SearchState} {l : Link}
    (hd : DijkMidInv exp start best gbest closed0 st)
    (hl_mem : l ∈ exp best) (hl_from : l.fromNode = best) (hl_nonneg : 0 ≤ l.cost) :
    DijkMidInv exp start best gbest closed0 (relaxLink defaultHeuristic start best st l) := by
  have hmid := hd.mid
  refine ⟨relaxLink_MidInv defaultHeuristic hmid hl_mem hl_from hl_nonneg, ?_, ?_, ?_, ?_⟩
  all_goals
    by_cases hc : l.toNode ∈ st.closed
  -- tc_eq
  · rw [relaxLink_of_closed defaultHeuristic start best hc]
    exact hd.tc_eq
  · rw [relaxLink_of_not_closed defaultHeuristic start best hc]
    rcases relaxCost_cases defaultHeuristic start best st l with ⟨heq, _⟩ | ⟨hlc, htc, _, _⟩
    · rw [heq]
      exact hd.tc_eq
    · show (relaxCost defaultHeuristic start best st l).totalCosts =
        (relaxCost defaultHeuristic start best st l).linkCosts
      rw [hlc, htc]
      funext x
      unfold mapSet
      by_cases he : x = l.toNode
      · rw [if_pos he, if_pos he]
        simp [defaultHeuristic]
      · rw [if_neg he, if_neg he]
        exact congrFun hd.tc_eq x
  -- open_ge
  · rw [relaxLink_of_closed defaultHeuristic start best hc]
    exact hd.open_ge
  · rw [relaxLink_of_not_closed defaultHeuristic start best hc]
    have hc0 : l.toNode ∉ closed0 := hmid.closed_eq ▸ hc
    have hgD : (st.linkCosts best).getD 0 = gbest := by rw [hmid.best_lc]; rfl
    rcases relaxCost_cases defaultHeuristic start best st l with
      ⟨heq, g, hg, _⟩ | ⟨hlc, _, _, _⟩
    · rw [heq]
      intro v hv gv hgv
      have hgv2 : st.linkCosts v = some gv := hgv
      rcases mem_setAdd.mp hv with hveq | hv'
      · rcases hmid.reached v (by rw [hgv2]; rfl) with hvo | hvc
        · exact hd.open_ge v hvo gv hgv2
        · exact absurd (hveq ▸ hvc) hc0
      · exact hd.open_ge v hv' gv hgv2
    · intro v hv gv hgv
      have hv2 : v ∈ setAdd st.openSet l.toNode := by
        have h0 : v ∈ setAdd (relaxCost defaultHeuristic start best st l).openSet l.toNode := hv
        rwa [relaxCost_openSet] at h0
      have hgv2 : mapSet st.linkCosts l.toNode (gbest + l.cost) v = some gv := by
        have h0 : (relaxCost defaultHeuristic start best st l).linkCosts v = some gv := hgv
        rw [hlc, hgD] at h0
        exact h0
      by_cases he : v = l.toNode
      · subst he
        rw [mapSet_same] at hgv2
        cases hgv2
        omega
      · rw [mapSet_other _ _ he] at hgv2
        rcases mem_setAdd.mp hv2 with hveq | hv'
        · exact absurd hveq he
        · exact hd.open_ge v hv' gv hgv2
  -- closed_le
  · rw [relaxLink_of_closed defaultHeuristic start best hc]
    exact hd.closed_le
  · rw [relaxLink_of_not_closed defaultHeuristic start best hc]
    have hc0 : l.toNode ∉ closed0 := hmid.closed_eq ▸ hc
    rcases relaxCost_cases defaultHeuristic start best st l with ⟨heq, _⟩ | ⟨hlc, _, _, _⟩
    · rw [heq]
      exact hd.closed_le
    · intro u hu gu hgu
      have he : u ≠ l.toNode := fun h' => hc0 (h' ▸ hu)
      have hgu2 : mapSet st.linkCosts l.toNode ((st.linkCosts best).getD 0 + l.cost) u
          = some gu := by
        have h0 : (relaxCost defaultHeuristic start best st l).linkCosts u = some gu := hgu
        rw [hlc] at h0
        exact h0
      rw [mapSet_other _ _ he] at hgu2
      exact hd.closed_le u hu gu hgu2
  -- closed_relaxed
  · rw [relaxLink_of_closed defaultHeuristic start best hc]
    exact hd.closed_relaxed
  · intro u hu l' hl' gu hgu
    have he : u ≠ l.toNode := fun h' => (hmid.closed_eq ▸ hc : l.toNode ∉ closed0) (h' ▸ hu)
    have hgu0 : (relaxCost defaultHeuristic start best st l).linkCosts u = some gu := by
      rw [relaxLink_of_not_closed defaultHeuristic start best hc] at hgu
      exact hgu
    have hgu' : st.linkCosts u = some gu := by
      rcases relaxCost_cases defaultHeuristic start best st l with ⟨heq, _⟩ | ⟨hlc, _, _, _⟩
      · rwa [heq] at hgu0
      · rw [hlc, mapSet_other _ _ he] at hgu0
        exact hgu0
    obtain ⟨gt, hgt, hle⟩ := hd.closed_relaxed u hu l' hl' gu hgu'
    obtain ⟨gt', hgt', hle'⟩ := relaxLink_lc_le defaultHeuristic start best st l l'.toNode gt hgt
    exact ⟨gt', hgt', le_trans hle' hle⟩

/-- Relaxing one of best's own links leaves its target with a recorded cost
of at most `gbest + cost` (also when the target is closed, whose recorded
cost is below `gbest`). -/
theorem relaxLink_processed {exp : Node → List Link} {start best : Node} {gbest : Int}
    {closed0 : List Node} {st : SearchState} {l : Link}
    (hd : DijkMidInv exp start best gbest closed0 st) (hl_nonneg : 0 ≤ l.cost) :
    ∃ gt, (relaxLink defaultHeuristic start best st l).linkCosts l.toNode = some gt ∧
      gt ≤ gbest + l.cost := by
  by_cases hc : l.toNode ∈ st.closed
  · rw [relaxLink_of_closed defaultHeuristic start best hc]
    have hc0 : l.toNode ∈ closed0 := hd.mid.closed_eq ▸ hc
    have hsome := hd.mid.closed_lc l.toNode hc0
    rcases hg : st.linkCosts l.toNode with _ | g
    · rw [hg] at hsome; cases hsome
    have := hd.closed_le l.toNode hc0 g hg
    exact ⟨g, rfl, by omega⟩
  · rw [relaxLink_of_not_closed defaultHeuristic start best hc]
    have hgD : (st.linkCosts best).getD 0 = gbest := by rw [hd.mid.best_lc]; rfl
    rcases relaxCost_cases defaultHeuristic start best st l with
      ⟨heq, g, hg, hle⟩ | ⟨hlc, _, _, _⟩
    · rw [hgD] at hle
      refine ⟨g, ?_, hle⟩
      have h0 : (relaxCost defaultHeuristic start best st l).linkCosts l.toNode = some g := by
        rw [heq]; exact hg
      exact h0
    · refine ⟨gbest + l.cost, ?_, le_refl _⟩
      have h0 : (relaxCost defaultHeuristic start best st l).linkCosts l.toNode
          = some (gbest + l.cost) := by
        rw [hlc, hgD, mapSet_same]
      exact h0

theorem foldRelax_DijkMidInv {exp : Node → List Link} {start best : Node} {gbest : Int}
    {closed0 : List Node} (links : List Link)
    (hgood : ∀ l ∈ links, l ∈ exp best ∧ l.fromNode = best ∧ 0 ≤ l.cost) :
    ∀ st : SearchState, DijkMidInv exp start best gbest closed0 st →
      DijkMidInv exp start best gbest closed0
        (links.foldl (relaxLink defaultHeuristic start best) st) ∧
      ∀ l ∈ links,
        ∃ gt, (links.foldl (relaxLink defaultHeuristic start best) st).linkCosts l.toNode
            = some gt ∧ gt ≤ gbest + l.cost := by
  induction links with
  | nil => exact fun st hs => ⟨hs, by intro l hl; cases hl⟩
  | cons l ls ih =>
    intro st hs
    obtain ⟨h1, h2, h3⟩ := hgood l (List.mem_cons_self _ _)
    have hstep := relaxLink_DijkMidInv hs h1 h2 h3
    obtain ⟨hfin, hproc⟩ := ih (fun m hm => hgood m (List.mem_cons_of_mem _ hm)) _ hstep
    refine ⟨by rw [List.foldl_cons]; exact hfin, ?_⟩
    intro m hm
    rcases List.mem_cons.mp hm with rfl | hm'
    · obtain ⟨gt, hgt, hle⟩ := relaxLink_processed hs h3
      obtain ⟨gt', hgt', hle'⟩ :=
        foldRelax_lc_le defaultHeuristic start best ls _ m.toNode gt hgt
      exact ⟨gt', by rw [List.foldl_cons]; exact hgt', le_trans hle' hle⟩
    · obtain ⟨gt, hgt, hle⟩ := hproc m hm'
      exact ⟨gt, by rw [List.foldl_cons]; exact hgt, hle⟩

theorem DijkInv_to_DijkMidInv {exp : Node → List Link} {start : Node} {st : SearchState}
    {best : Node}
    (hinv : DijkInv exp start st)
    (hb : findBest st.totalCosts st.openSet none = some best) :
    ∃ gbest, st.linkCosts best = some gbest ∧
      DijkMidInv exp start best gbest st.closed st := by
  obtain ⟨gbest, hglc, hmid⟩ := ChainInv_to_MidInv hinv.chain hb
  have hdom : ∀ n ∈ st.openSet, (st.totalCosts n).isSome := by
    intro n hn
    rw [hinv.tc_eq]
    exact hinv.chain.open_lc n hn
  have hmin := (findBest_spec st best hdom hb).2.1
  refine ⟨gbest, hglc, hmid, hinv.tc_eq, ?_, ?_, hinv.closed_relaxed⟩
  · intro v hv gv hgv
    exact hmin v hv gbest gv (by rw [hinv.tc_eq]; exact hglc) (by rw [hinv.tc_eq]; exact hgv)
  · intro u hu gu hgu
    exact hinv.closed_le_open u hu best (findBest_none_mem hb) gu gbest hgu hglc

theorem DijkMidInv_close {exp : Node → List Link} {start best : Node} {gbest : Int}
    {closed0 : List Node} {st1 : SearchState}
    (hd : DijkMidInv exp start best gbest closed0 st1)
    (hproc : ∀ l ∈ exp best,
      ∃ gt, st1.linkCosts l.toNode = some gt ∧ gt ≤ gbest + l.cost)
    (hnn : ∀ l ∈ exp best, 0 ≤ l.cost) :
    DijkInv exp start
      { st1 with closed := setAdd st1.closed best
                 openSet := st1.openSet.erase best
                 iterations := st1.iterations + 1 } := by
  have hmid := hd.mid
  have hbnotc : best ∉ closed0 := hmid.disj best hmid.best_open
  have hmem_closed2 : ∀ x, x ∈ setAdd st1.closed best ↔ x ∈ closed0 ∨ x = best := by
    intro x
    rw [hmid.closed_eq, setAdd_of_not_mem hbnotc]
    simp [List.mem_append, List.mem_singleton]
  refine ⟨MidInv_close hmid, hd.tc_eq, ?_, ?_⟩
  · -- closed_le_open
    intro u hu v hv gu gv hgu hgv
    have hv' : v ∈ st1.openSet := List.mem_of_mem_erase hv
    have hvge := hd.open_ge v hv' gv hgv
    rcases (hmem_closed2 u).mp hu with hc | rfl
    · have := hd.closed_le u hc gu hgu
      omega
    · rw [hmid.best_lc] at hgu
      cases hgu
      exact hvge
  · -- closed_relaxed
    intro u hu l hl gu hgu
    rcases (hmem_closed2 u).mp hu with hc | rfl
    · exact hd.closed_relaxed u hc l hl gu hgu
    · rw [hmid.best_lc] at hgu
      cases hgu
      exact hproc l hl

theorem initState_DijkInv (exp : Node → List Link) (start : Node) :
    DijkInv exp start (initState start) := by
  refine ⟨initState_ChainInv exp start, rfl, ?_, ?_⟩
  · intro u hu
    simp [initState] at hu
  · intro u hu
    simp [initState] at hu

theorem step_DijkInv {exp : Node → List Link} {start goal : Node} {st st' : SearchState}
    (Hexp : ∀ n l, l ∈ exp n → l.fromNode = n ∧ 0 ≤ l.cost)
    (hinv : DijkInv exp start st)
    (hstep : stepSearch exp defaultHeuristic start goal st = .next st') :
    DijkInv exp start st' := by
  rcases hbest : findBest st.totalCosts st.openSet none with _ | best
  · rw [stepSearch_empty hbest] at hstep; cases hstep
  by_cases hgoal : goal = best
  · rcases hrec : reconstruct st.cameFrom (st.closed.length + 2) best with _ | p
    · rw [stepSearch_goal_stuck hbest hgoal hrec] at hstep; cases hstep
    · rw [stepSearch_goal hbest hgoal hrec] at hstep; cases hstep
  · rw [stepSearch_expand hbest hgoal] at hstep
    obtain ⟨gbest, hglc, hdmid⟩ := DijkInv_to_DijkMidInv hinv hbest
    obtain ⟨hfin, hproc⟩ := foldRelax_DijkMidInv (exp best)
      (fun l hl => ⟨hl, (Hexp best l hl).1, (Hexp best l hl).2⟩) st hdmid
    cases hstep
    exact DijkMidInv_close hfin hproc (fun l hl => (Hexp best l hl).2)

/-- Cut argument: when the goal is about to be popped with minimal recorded
cost `gg`, every path of the graph from a reached node `a` to the goal costs
at least `gg - linkCosts[a]`.  The path either starts at an open node (whose
recorded cost already dominates `gg` and whose remaining cost is
non-negative) or crosses the closed set, whose outgoing links are fully
relaxed. -/
theorem dijkstra_cut {exp : Node → List Link} {start goal : Node} {st : SearchState}
    {gg : Int}
    (Hnn : ∀ n l, l ∈ exp n → 0 ≤ l.cost)
    (hinv : DijkInv exp start st)
    (hmin : ∀ v ∈ st.openSet, ∀ gv, st.linkCosts v = some gv → gg ≤ gv)
    (hgoal_lc : st.linkCosts goal = some gg) :
    ∀ (ls : List Link) (a : Node) (ga : Int), IsPath exp a ls goal →
      st.linkCosts a = some ga → (a ∈ st.openSet ∨ a ∈ st.closed) →
      gg ≤ ga + pathCost ls := by
  intro ls
  induction ls with
  | nil =>
    intro a ga hpath hga _
    have heq : a = goal := hpath
    subst heq
    rw [hga] at hgoal_lc
    injection hgoal_lc with h
    subst h
    simp [pathCost]
  | cons l ls ih =>
    intro a ga hpath hga hmem
    obtain ⟨hfrom, hmem_l, hrest⟩ := hpath
    rcases hmem with hopen | hclosed
    · have h1 := hmin a hopen ga hga
      have h2 : 0 ≤ pathCost (l :: ls) := pathCost_nonneg Hnn ⟨hfrom, hmem_l, hrest⟩
      omega
    · obtain ⟨gt, hgt, hle⟩ := hinv.closed_relaxed a hclosed l hmem_l ga hga
      have hreach := hinv.chain.reached l.toNode (by rw [hgt]; rfl)
      have ih' := ih l.toNode gt hrest hgt hreach
      have hpcl : pathCost (l :: ls) = l.cost + pathCost ls := rfl
      omega

theorem loop_dijkstra_optimal {exp : Node → List Link} {start goal : Node}
    (Hexp : ∀ n l, l ∈ exp n → l.fromNode = n ∧ 0 ≤ l.cost) :
    ∀ (fuel : Nat) (st : SearchState) (p : Path), DijkInv exp start st →
      findPathLoop exp defaultHeuristic start goal fuel st = some p → p.found = true →
      ∃ c pl, p.cost = some c ∧ p.path = some pl ∧ pathCost pl = c ∧
        IsPath exp start pl goal ∧ ∀ q, IsPath exp start q goal → c ≤ pathCost q := by
  intro fuel
  induction fuel with
  | zero => intro st p _ hrun; cases hrun
  | succ n ih =>
    intro st p hinv hrun hfound
    rw [findPathLoop_succ] at hrun
    rcases hbest : findBest st.totalCosts st.openSet none with _ | best
    · rw [stepSearch_empty hbest] at hrun
      dsimp only at hrun
      cases hrun
      cases hfound
    by_cases hgoal : goal = best
    · have hmem : best ∈ st.openSet := findBest_none_mem hbest
      obtain ⟨gbest, hglc, hdmid⟩ := DijkInv_to_DijkMidInv hinv hbest
      obtain ⟨pl, hrec, hpath, hcost⟩ :=
        recon_reached hinv.chain best (by rw [hglc]; rfl)
      rw [stepSearch_goal hbest hgoal hrec] at hrun
      dsimp only at hrun
      cases hrun
      refine ⟨gbest, pl, hglc, rfl, hcost gbest hglc, hgoal ▸ hpath, ?_⟩
      intro q hq
      have hcut := dijkstra_cut (fun n l hl => (Hexp n l hl).2) hinv
        (hdmid.open_ge) (hgoal ▸ hglc) q start 0 hq hinv.chain.g_start
        hinv.chain.start_mem
      omega
    · rw [stepSearch_expand hbest hgoal] at hrun
      dsimp only at hrun
      exact ih _ p (step_DijkInv Hexp hinv (stepSearch_expand hbest hgoal)) hrun hfound

/-- C1: for a finite graph with honest, non-negative links, a search run with
the default zero heuristic (the constructor's fallback when no heuristic is
supplied) that reports `found = true` returns a `cost` equal to the summed
costs of the links of the returned `path`, that path is a genuine path of the
graph from start to goal, and the cost is minimal among all paths of the
graph from start to goal (Dijkstra optimality). -/
theorem findPath_dijkstra_optimal (calculateLinksForNode : Node → List Link)
    (S : List Node) (start goal : Node) (fuel : Nat) (p : Path)
    (Hfin : ∀ n l, l ∈ calculateLinksForNode n → l.toNode ∈ S)
    (Hexp : ∀ n l, l ∈ calculateLinksForNode n → l.fromNode = n ∧ 0 ≤ l.cost)
    (hrun : findPath calculateLinksForNode defaultHeuristic start goal fuel = some p)
    (hfound : p.found = true) :
    ∃ c pl, p.cost = some c ∧ p.path = some pl ∧ pathCost pl = c ∧
      IsPath calculateLinksForNode start pl goal ∧
      ∀ q, IsPath calculateLinksForNode start q goal → c ≤ pathCost q :=
  loop_dijkstra_optimal Hexp fuel (initState start) p
    (initState_DijkInv calculateLinksForNode start) hrun hfound

/-- Four-node diamond graph from the repository's test-suite (two competing
routes from `a` to `d`). -/
def expT4 : Node → List Link :=
  linksToExpander [⟨"a", "b", 3⟩, ⟨"a", "c", 1⟩, ⟨"b", "d", 3⟩, ⟨"c", "d", 2⟩]

/-- C1 witness: on the diamond graph the search returns cost 3 with the
cheaper route, and that cost is path-minimal. -/
theorem findPath_dijkstra_optimal_witness :
    ∃ c pl,
      (Path.mk true 4 (some 3) (some [⟨"a", "c", 1⟩, ⟨"c", "d", 2⟩])).cost = some c ∧
      (Path.mk true 4 (some 3) (some [⟨"a", "c", 1⟩, ⟨"c", "d", 2⟩])).path = some pl ∧
      pathCost pl = c ∧ IsPath expT4 "a" pl "d" ∧
      ∀ q, IsPath expT4 "a" q "d" → c ≤ pathCost q :=
  findPath_dijkstra_optimal expT4 ["a", "b", "c", "d"] "a" "d" 10
    (Path.mk true 4 (some 3) (some [⟨"a", "c", 1⟩, ⟨"c", "d", 2⟩]))
    (by
      intro n l hl
      simp only [expT4, linksToExpander] at hl
      obtain ⟨hm, _⟩ := List.mem_filter.mp hl
      fin_cases hm <;> decide)
    (by
      intro n l hl
      simp only [expT4, linksToExpander] at hl
      obtain ⟨hm, hp⟩ := List.mem_filter.mp hl
      refine ⟨of_decide_eq_true hp, ?_⟩
      fin_cases hm <;> decide)
    (by decide) (by decide)

/-! Termination: when every link stays inside a finite node universe `S` and
costs are non-negative (so the trace-back cannot cycle), the loop finishes
within `S.dedup.length + 1` iterations, because every iteration either
returns or moves a fresh node into the duplicate-free closed list `⊆ S`. -/

structure SubInv (S : List Node) (st : SearchState) : Prop where
  open_sub : ∀ x ∈ st.openSet, x ∈ S
  closed_sub : ∀ x ∈ st.closed, x ∈ S
  closed_nodup : st.closed.Nodup

theorem relaxLink_open_sub (h : Node → Node → Int) (start best : Node)
    (st : SearchState) (l : Link) :
    ∀ x ∈ (relaxLink h start best st l).openSet, x ∈ st.openSet ∨ x = l.toNode := by
  intro x hx
  by_cases hc : l.toNode ∈ st.closed
  · rw [relaxLink_of_closed h start best hc] at hx
    exact Or.inl hx
  · rw [relaxLink_of_not_closed h start best hc] at hx
    have hx2 : x ∈ setAdd st.openSet l.toNode := by
      have h0 : x ∈ setAdd (relaxCost h start best st l).openSet l.toNode := hx
      rwa [relaxCost_openSet] at h0
    rcases mem_setAdd.mp hx2 with he | hm
    · exact Or.inr he
    · exact Or.inl hm

theorem foldRelax_open_sub (h : Node → Node → Int) (start best : Node) (links : List Link) :
    ∀ (st : SearchState) (x : Node), x ∈ (links.foldl (relaxLink h start best) st).openSet →
      x ∈ st.openSet ∨ ∃ l ∈ links, x = l.toNode := by
  induction links with
  | nil => exact fun st x hx => Or.inl hx
  | cons l ls ih =>
    intro st x hx
    rw [List.foldl_cons] at hx
    rcases ih (relaxLink h start best st l) x hx with hx' | ⟨m, hm, he⟩
    · rcases relaxLink_open_sub h start best st l x hx' with hx'' | he
      · exact Or.inl hx''
      · exact Or.inr ⟨l, List.mem_cons_self _ _, he⟩
    · exact Or.inr ⟨m, List.mem_cons_of_mem _ hm, he⟩

theorem foldRelax_closed (h : Node → Node → Int) (start best : Node) (links : List Link) :
    ∀ st : SearchState, (links.foldl (relaxLink h start best) st).closed = st.closed := by
  induction links with
  | nil => exact fun st => rfl
  | cons l ls ih =>
    intro st
    rw [List.foldl_cons, ih, relaxLink_closed]

theorem step_SubInv {exp : Node → List Link} {h : Node → Node → Int} {S : List Node}
    {start goal : Node} {st st' : SearchState}
    (HexpS : ∀ n l, l ∈ exp n → l.toNode ∈ S)
    (hdisj : ∀ x ∈ st.openSet, x ∉ st.closed)
    (hsub : SubInv S st)
    (hstep : stepSearch exp h start goal st = .next st') :
    SubInv S st' ∧ st'.closed.length = st.closed.length + 1 := by
  rcases hbest : findBest st.totalCosts st.openSet none with _ | best
  · rw [stepSearch_empty hbest] at hstep; cases hstep
  by_cases hgoal : goal = best
  · rcases hrec : reconstruct st.cameFrom (st.closed.length + 2) best with _ | p
    · rw [stepSearch_goal_stuck hbest hgoal hrec] at hstep; cases hstep
    · rw [stepSearch_goal hbest hgoal hrec] at hstep; cases hstep
  · rw [stepSearch_expand hbest hgoal] at hstep
    have hbmem : best ∈ st.openSet := findBest_none_mem hbest
    have hbnc : best ∉ st.closed := hdisj best hbmem
    have hcl : ((exp best).foldl (relaxLink h start best) st).closed = st.closed :=
      foldRelax_closed h start best (exp best) st
    cases hstep
    constructor
    · refine ⟨?_, ?_, ?_⟩
      · intro x hx
        have hx' := List.mem_of_mem_erase hx
        rcases foldRelax_open_sub h start best (exp best) st x hx' with hx'' | ⟨l, hl, he⟩
        · exact hsub.open_sub x hx''
        · exact he ▸ HexpS best l hl
      · intro x hx
        rw [hcl] at hx
        rcases mem_setAdd.mp hx with rfl | hx'
        · exact hsub.open_sub x hbmem
        · exact hsub.closed_sub x hx'
      · rw [hcl]
        exact setAdd_nodup hsub.closed_nodup
    · rw [hcl, setAdd_of_not_mem hbnc, List.length_append]
      rfl

theorem loop_terminates_aux (exp : Node → List Link) (h : Node → Node → Int)
    (S : List Node) (start goal : Node)
    (Hexp : ∀ n l, l ∈ exp n → l.fromNode = n ∧ 0 ≤ l.cost ∧ l.toNode ∈ S) :
    ∀ (fuel : Nat) (st : SearchState),
      ChainInv exp start st → SubInv S st →
      S.dedup.length < st.closed.length + fuel →
      (findPathLoop exp h start goal fuel st).isSome := by
  intro fuel
  induction fuel with
  | zero =>
    intro st _ hsub hcount
    exfalso
    have hsubset : st.closed ⊆ S.dedup := by
      intro x hx
      exact List.mem_dedup.mpr (hsub.closed_sub x hx)
    have hperm := hsub.closed_nodup.subperm hsubset
    have := hperm.length_le
    omega
  | succ n ih =>
    intro st hchain hsub hcount
    rw [findPathLoop_succ]
    rcases hbest : findBest st.totalCosts st.openSet none with _ | best
    · rw [stepSearch_empty hbest]
      rfl
    by_cases hgoal : goal = best
    · have hmem : best ∈ st.openSet := findBest_none_mem hbest
      obtain ⟨p, hp, _, _⟩ := recon_reached hchain best (hchain.open_lc best hmem)
      rw [stepSearch_goal hbest hgoal hp]
      rfl
    · have hstep : stepSearch exp h start goal st = .next
          { (exp best).foldl (relaxLink h start best) st with
            closed := setAdd ((exp best).foldl (relaxLink h start best) st).closed best
            openSet := ((exp best).foldl (relaxLink h start best) st).openSet.erase best
            iterations := ((exp best).foldl (relaxLink h start best) st).iterations + 1 } :=
        stepSearch_expand hbest hgoal
      obtain ⟨hsub', hlen⟩ := step_SubInv (fun n l hl => (Hexp n l hl).2.2)
        hchain.disj hsub hstep
      have hchain' := step_ChainInv (fun n l hl => ⟨(Hexp n l hl).1, (Hexp n l hl).2.1⟩)
        hchain hstep
      rw [hstep]
      exact ih _ hchain' hsub' (by omega)

/-- C9 amended: when the collaborators' links stay inside a finite node set
`S`, leave the queried node, and carry non-negative costs, `findPath`
terminates with a result within `S.dedup.length + 1` loop iterations.  (The
unamended claim, without non-negative costs, is refuted by
a negative-cost self-loop that makes the trace-back cycle.) -/
theorem findPath_terminates_nonneg (calculateLinksForNode : Node → List Link)
    (calculateHeuristicCostToTraverseLink : Node → Node → Int)
    (S : List Node) (start goal : Node)
    (Hexp : ∀ n l, l ∈ calculateLinksForNode n →
      l.fromNode = n ∧ 0 ≤ l.cost ∧ l.toNode ∈ S)
    (hstart : start ∈ S) :
    ∃ p, findPath calculateLinksForNode calculateHeuristicCostToTraverseLink
      start goal (S.dedup.length + 1) = some p := by
  have hsub : SubInv S (initState start) := by
    refine ⟨?_, ?_, ?_⟩
    · intro x hx
      rcases List.mem_singleton.mp hx with rfl
      exact hstart
    · intro x hx
      simp [initState] at hx
    · simp [initState]
  have hres := loop_terminates_aux calculateLinksForNode
    calculateHeuristicCostToTraverseLink S start goal Hexp
    (S.dedup.length + 1) (initState start)
    (initState_ChainInv calculateLinksForNode start) hsub (by simp [initState])
  rcases hp : findPathLoop calculateLinksForNode calculateHeuristicCostToTraverseLink
      start goal (S.dedup.length + 1) (initState start) with _ | p
  · rw [hp] at hres; cases hres
  · exact ⟨p, hp⟩

/-- C9 witness: the diamond test graph terminates within five iterations. -/
theorem findPath_terminates_nonneg_witness :
    ∃ p, findPath expT4 defaultHeuristic "a" "d"
      ((["a", "b", "c", "d"] : List Node).dedup.length + 1) = some p :=
  findPath_terminates_nonneg expT4 defaultHeuristic ["a", "b", "c", "d"] "a" "d"
    (by
      intro n l hl
      simp only [expT4, linksToExpander] at hl
      obtain ⟨hm, hp⟩ := List.mem_filter.mp hl
      refine ⟨of_decide_eq_true hp, ?_, ?_⟩ <;> fin_cases hm <;> decide)
    (by decide)

/-- Graph with a negative-cost self-loop on the way to the goal: the
relaxation of `u → u` (cost −9) rewrites `cameFrom[u]` to the self-loop
while `u` is being expanded, so the trace-back loop cycles forever. -/
def exp9 : Node → List Link :=
  linksToExpander [⟨"s", "u", 5⟩, ⟨"u", "u", -9⟩, ⟨"u", "t", 1⟩]

/-- C9 counterexample: the collaborators only mention nodes of the finite set
`{s, u, t}`, yet `findPath` never terminates — the goal is selected on the
third iteration but the trace-back chases the self-loop `u → u` forever, so
no fuel suffices. -/
theorem findPath_diverges_negative_cost :
    (∀ n l, l ∈ exp9 n → l.fromNode = n ∧
      l.fromNode ∈ (["s", "u", "t"] : List Node) ∧
      l.toNode ∈ (["s", "u", "t"] : List Node)) ∧
    (∀ fuel, findPath exp9 defaultHeuristic "s" "t" fuel = none) := by
  constructor
  · intro n l hl
    simp only [exp9, linksToExpander] at hl
    obtain ⟨hm, hp⟩ := List.mem_filter.mp hl
    refine ⟨of_decide_eq_true hp, ?_, ?_⟩ <;> fin_cases hm <;> decide
  · intro fuel
    match fuel with
    | 0 => rfl
    | 1 => rfl
    | 2 => rfl
    | (n + 3) => rfl

/-- Graph with a negative-cost self-loop used by the C10 counterexample. -/
def expN : Node → List Link :=
  linksToExpander [⟨"a", "b", 10⟩, ⟨"b", "b", -100⟩, ⟨"b", "c", 1⟩]

/-- C10 counterexample: this expander is honest (every returned link leaves
the queried node), yet the `cameFrom` chain produced by the run cycles on the
negative-cost self-loop `b → b`, so path reconstruction never reaches the
start node's null entry: `findPath` produces no result for any fuel, even
though the goal is reached. -/
theorem cameFrom_chain_cycles_negative_cost :
    (∀ n l, l ∈ expN n → l.fromNode = n) ∧
    (∀ fuel, findPath expN defaultHeuristic "a" "c" fuel = none) := by
  constructor
  · intro n l hl
    simp only [expN, linksToExpander] at hl
    obtain ⟨_, hp⟩ := List.mem_filter.mp hl
    exact of_decide_eq_true hp
  · intro fuel
    match fuel with
    | 0 => rfl
    | 1 => rfl
    | 2 => rfl
    | (n + 3) => rfl

/-- C10 amended: (unconditionally) every node of the open set has entries in
all three maps throughout every execution — the invariant holds initially, is
preserved by every loop iteration, and implies that the best-node scan only
compares recorded `totalCosts` values; and (adding non-negative link costs to
the claim's honest-expander hypothesis, as forced by the negative-cost
counterexample) every `cameFrom` chain from a reached node consists of
defined entries and ends at the start node's null entry, so the trace-back
succeeds within fuel `closed.length + 2` and yields a path of the graph from
the start node. -/
theorem open_node_entries_and_traceback_safe (calculateLinksForNode : Node → List Link)
    (calculateHeuristicCostToTraverseLink : Node → Node → Int) (start goal : Node) :
    (DomInv (initState start) ∧
     (∀ st st', DomInv st →
        stepSearch calculateLinksForNode calculateHeuristicCostToTraverseLink
          start goal st = .next st' → DomInv st') ∧
     (∀ st, DomInv st → ∀ x ∈ st.openSet,
        (st.linkCosts x).isSome ∧ (st.totalCosts x).isSome ∧ (st.cameFrom x).isSome)) ∧
    ((∀ n l, l ∈ calculateLinksForNode n → l.fromNode = n ∧ 0 ≤ l.cost) →
      ChainInv calculateLinksForNode start (initState start) ∧
      (∀ st st', ChainInv calculateLinksForNode start st →
        stepSearch calculateLinksForNode calculateHeuristicCostToTraverseLink
          start goal st = .next st' → ChainInv calculateLinksForNode start st') ∧
      (∀ st, ChainInv calculateLinksForNode start st → ∀ x, (st.linkCosts x).isSome →
        ∃ p, reconstruct st.cameFrom (st.closed.length + 2) x = some p ∧
          IsPath calculateLinksForNode start p x)) := by
  refine ⟨⟨initState_DomInv start, ?_, ?_⟩, ?_⟩
  · intro st st' hd hstep
    exact step_DomInv hd hstep
  · intro st hd x hx
    exact ⟨hd.open_lc x hx, hd.lc_tc x (hd.open_lc x hx), hd.lc_cf x (hd.open_lc x hx)⟩
  · intro Hexp
    refine ⟨initState_ChainInv calculateLinksForNode start, ?_, ?_⟩
    · intro st st' hc hstep
      exact step_ChainInv Hexp hc hstep
    · intro st hc x hx
      obtain ⟨p, hp, hpath, _⟩ := recon_reached hc x hx
      exact ⟨p, hp, hpath⟩

/-- C10 witness: the safety statement applied to the diamond test graph at
the initial state of a search from `a`. -/
theorem open_node_entries_and_traceback_safe_witness :
    ∃ p, reconstruct (initState "a").cameFrom ((initState "a").closed.length + 2) "a"
        = some p ∧ IsPath expT4 "a" p "a" :=
  ((open_node_entries_and_traceback_safe expT4 defaultHeuristic "a" "d").2
      (by
        intro n l hl
        simp only [expT4, linksToExpander] at hl
        obtain ⟨hm, hp⟩ := List.mem_filter.mp hl
        refine ⟨of_decide_eq_true hp, ?_⟩
        fin_cases hm <;> decide)).2.2
    (initState "a")
    (initState_ChainInv expT4 "a") "a" (by decide)

/-- Admissibility of a heuristic estimator for a fixed start and goal, in
the calling convention of the engine (the estimator receives the start node
and the candidate node): the estimate for a node never exceeds the cost of
any path of the graph from that node to the goal. -/
def Admissible (exp : Node → List Link) (h : Node → Node → Int)
    (start goal : Node) : Prop :=
  ∀ n q, IsPath exp n q goal → h start n ≤ pathCost q

/-- Diamond graph on which an admissible but inconsistent heuristic makes
the closed-set A* return a suboptimal cost: the optimal route to `a` goes
through `b`, but the heuristic delays `b` long enough for `a` to be closed
with the direct cost 3. -/
def expC7 : Node → List Link :=
  linksToExpander [⟨"s", "a", 3⟩, ⟨"s", "b", 1⟩, ⟨"b", "a", 1⟩, ⟨"a", "g", 1⟩]

/-- Admissible, inconsistent heuristic for `expC7`:
`h(b) = 2 = dist(b, g)` but `h(b) > cost(b → a) + h(a)`. -/
def hC7 : Node → Node → Int := fun _ n =>
  if n = "a" then 0 else if n = "b" then 2 else 0

/-- Exact remaining-distance lower bounds for `expC7` toward goal `g`. -/
def dlbC7 : Node → Int := fun n =>
  if n = "g" then 0 else if n = "a" then 1 else if n = "b" then 2
  else if n = "s" then 3 else 0

theorem dlbC7_le : ∀ (q : List Link) (n : Node),
    IsPath expC7 n q "g" → dlbC7 n ≤ pathCost q := by
  intro q
  induction q with
  | nil =>
    intro n hq
    have hn : n = "g" := hq
    subst hn
    decide
  | cons l ls ih =>
    intro n hq
    obtain ⟨hfrom, hmem, hrest⟩ := hq
    have hl4 : l ∈ ([⟨"s", "a", 3⟩, ⟨"s", "b", 1⟩, ⟨"b", "a", 1⟩, ⟨"a", "g", 1⟩]
        : List Link) := by
      have hf := hmem
      simp only [expC7, linksToExpander, List.mem_filter] at hf
      exact hf.1
    have hrec := ih l.toNode hrest
    subst hfrom
    fin_cases hl4
    · have hrec' : (1 : Int) ≤ pathCost ls := hrec
      show (3 : Int) ≤ 3 + pathCost ls
      omega
    · have hrec' : (2 : Int) ≤ pathCost ls := hrec
      show (3 : Int) ≤ 1 + pathCost ls
      omega
    · have hrec' : (1 : Int) ≤ pathCost ls := hrec
      show (2 : Int) ≤ 1 + pathCost ls
      omega
    · have hrec' : (0 : Int) ≤ pathCost ls := hrec
      show (1 : Int) ≤ 1 + pathCost ls
      omega

theorem expC7_admissible : Admissible expC7 hC7 "s" "g" := by
  intro n q hq
  have h1 := dlbC7_le q n hq
  have h2 : hC7 "s" n ≤ dlbC7 n := by
    by_cases ha : n = "a"
    · subst ha; decide
    by_cases hb : n = "b"
    · subst hb; decide
    · show (if n = "a" then (0 : Int) else if n = "b" then 2 else 0) ≤ dlbC7 n
      rw [if_neg ha, if_neg hb]
      unfold dlbC7
      split_ifs <;> omega
  omega

/-- C7 counterexample: on a finite graph with honest non-negative links
there is an admissible (non-negative) heuristic for which `findPath` returns
cost 4, while the default zero-heuristic run returns the optimal cost 3 (in
the same number of iterations): an admissible but inconsistent heuristic can
change the returned cost, refuting the claim's universal cost preservation. -/
theorem admissible_heuristic_changes_cost :
    Admissible expC7 hC7 "s" "g" ∧
    (∀ n1 n2, 0 ≤ hC7 n1 n2) ∧
    (∀ n l, l ∈ expC7 n → l.fromNode = n ∧ 0 ≤ l.cost ∧
      l.toNode ∈ (["s", "a", "b", "g"] : List Node)) ∧
    findPath expC7 defaultHeuristic "s" "g" 10 =
      some ⟨true, 4, some 3, some [⟨"s", "b", 1⟩, ⟨"b", "a", 1⟩, ⟨"a", "g", 1⟩]⟩ ∧
    findPath expC7 hC7 "s" "g" 10 =
      some ⟨true, 4, some 4, some [⟨"s", "a", 3⟩, ⟨"a", "g", 1⟩]⟩ ∧
    ((3 : Int) ≠ 4) := by
  refine ⟨expC7_admissible, ?_, ?_, by decide, by decide, by decide⟩
  · intro n1 n2
    unfold hC7
    split_ifs <;> omega
  · intro n l hl
    simp only [expC7, linksToExpander] at hl
    obtain ⟨hm, hp⟩ := List.mem_filter.mp hl
    refine ⟨of_decide_eq_true hp, ?_, ?_⟩ <;> fin_cases hm <;> decide

/-- Graph for the amended C7 statement: a misleading branch `c` that an
admissible heuristic rules out, letting the heuristic run pop the goal one
iteration earlier than the zero-heuristic run, at the same cost. -/
def expC7b : Node → List Link :=
  linksToExpander [⟨"a", "b", 1⟩, ⟨"a", "c", 1⟩, ⟨"b", "g", 1⟩]

/-- Admissible heuristic for `expC7b` (`c` has no path to `g`, so any
estimate for it is admissible). -/
def hC7b : Node → Node → Int := fun _ n =>
  if n = "b" then 1 else if n = "c" then 5 else 0

/-- Remaining-distance lower bounds for `expC7b` toward goal `g`. -/
def dlbC7b : Node → Int := fun n =>
  if n = "g" then 0 else if n = "b" then 1 else if n = "a" then 2
  else if n = "c" then 5 else 0

theorem dlbC7b_le : ∀ (q : List Link) (n : Node),
    IsPath expC7b n q "g" → dlbC7b n ≤ pathCost q := by
  intro q
  induction q with
  | nil =>
    intro n hq
    have hn : n = "g" := hq
    subst hn
    decide
  | cons l ls ih =>
    intro n hq
    obtain ⟨hfrom, hmem, hrest⟩ := hq
    have hl3 : l ∈ ([⟨"a", "b", 1⟩, ⟨"a", "c", 1⟩, ⟨"b", "g", 1⟩] : List Link) := by
      have hf := hmem
      simp only [expC7b, linksToExpander, List.mem_filter] at hf
      exact hf.1
    have hrec := ih l.toNode hrest
    subst hfrom
    fin_cases hl3
    · have hrec' : (1 : Int) ≤ pathCost ls := hrec
      show (2 : Int) ≤ 1 + pathCost ls
      omega
    · have hrec' : (5 : Int) ≤ pathCost ls := hrec
      show (2 : Int) ≤ 1 + pathCost ls
      omega
    · have hrec' : (0 : Int) ≤ pathCost ls := hrec
      show (1 : Int) ≤ 1 + pathCost ls
      omega

theorem expC7b_admissible : Admissible expC7b hC7b "a" "g" := by
  intro n q hq
  have h1 := dlbC7b_le q n hq
  have h2 : hC7b "a" n ≤ dlbC7b n := by
    by_cases hb : n = "b"
    · subst hb; decide
    by_cases hc : n = "c"
    · subst hc; decide
    · show (if n = "b" then (1 : Int) else if n = "c" then 5 else 0) ≤ dlbC7b n
      rw [if_neg hb, if_neg hc]
      unfold dlbC7b
      split_ifs <;> omega
  omega

/-- C7 amended: an admissible heuristic can reduce the iteration count while
preserving the returned cost — witnessed by a concrete graph and admissible
non-negative heuristic where the heuristic run takes 3 iterations against 4
for the zero-heuristic run, with cost 2 in both — but this is not guaranteed
for every admissible heuristic: an inconsistent admissible heuristic can
increase the returned cost (see the counterexample). -/
theorem heuristic_can_reduce_iterations_same_cost :
    Admissible expC7b hC7b "a" "g" ∧
    (∀ n1 n2, 0 ≤ hC7b n1 n2) ∧
    (∀ n l, l ∈ expC7b n → l.fromNode = n ∧ 0 ≤ l.cost ∧
      l.toNode ∈ (["a", "b", "c", "g"] : List Node)) ∧
    findPath expC7b defaultHeuristic "a" "g" 10 =
      some ⟨true, 4, some 2, some [⟨"a", "b", 1⟩, ⟨"b", "g", 1⟩]⟩ ∧
    findPath expC7b hC7b "a" "g" 10 =
      some ⟨true, 3, some 2, some [⟨"a", "b", 1⟩, ⟨"b", "g", 1⟩]⟩ ∧
    3 < 4 := by
  refine ⟨expC7b_admissible, ?_, ?_, by decide, by decide, by omega⟩
  · intro n1 n2
    unfold hC7b
    split_ifs <;> omega
  · intro n l hl
    simp only [expC7b, linksToExpander] at hl
    obtain ⟨hm, hp⟩ := List.mem_filter.mp hl
    refine ⟨of_decide_eq_true hp, ?_, ?_⟩ <;> fin_cases hm <;> decide

/-! Failure-aware embedding for claim C8.  The collaborators are
`async` functions whose promises may reject; in the embedding they return
`Except ε _`.  `findPathE` mirrors `findPath` line by line: every collaborator
call is awaited, and a raised error short-circuits the whole invocation
(`await` rethrows), so no `Path` value — partial or otherwise — is produced.
A result of `Except.ok none` models fuel exhaustion or the trace-back crash,
exactly as `none` does in the pure embedding. -/

def relaxLinkE {ε : Type} (heuristic : Node → Node → Except ε Int) (start best : Node)
    (st : SearchState) (link : Link) : Except ε SearchState :=
  if link.toNode ∈ st.closed then .ok st
  else
    if !(st.linkCosts link.toNode).isSome
        || jsGt (st.linkCosts link.toNode) ((st.linkCosts best).getD 0 + link.cost) then
      match heuristic start link.toNode with
      | .error e => .error e
      | .ok hv =>
        .ok { st with
              linkCosts := mapSet st.linkCosts link.toNode
                ((st.linkCosts best).getD 0 + link.cost)
              totalCosts := mapSet st.totalCosts link.toNode
                ((st.linkCosts best).getD 0 + link.cost + hv)
              cameFrom := mapSet st.cameFrom link.toNode (some link)
              openSet := setAdd st.openSet link.toNode }
    else .ok { st with openSet := setAdd st.openSet link.toNode }

def relaxAllE {ε : Type} (heuristic : Node → Node → Except ε Int) (start best : Node) :
    List Link → SearchState → Except ε SearchState
  | [], st => .ok st
  | l :: ls, st =>
    match relaxLinkE heuristic start best st l with
    | .error e => .error e
    | .ok st' => relaxAllE heuristic start best ls st'

def findPathLoopE {ε : Type} (calculateLinksForNode : Node → Except ε (List Link))
    (calculateHeuristicCostToTraverseLink : Node → Node → Except ε Int)
    (start goal : Node) : Nat → SearchState → Except ε (Option Path)
  | 0, _ => .ok none
  | fuel + 1, st =>
    match findBest st.totalCosts st.openSet none with
    | none => .ok (some { found := false, iterations := st.iterations
                          cost := none, path := none })
    | some best =>
      if goal = best then
        match reconstruct st.cameFrom (st.closed.length + 2) best with
        | none => .ok none
        | some p =>
          .ok (some { found := true, iterations := st.iterations
                      cost := st.linkCosts best, path := some p })
      else
        match calculateLinksForNode best with
        | .error e => .error e
        | .ok links =>
          match relaxAllE calculateHeuristicCostToTraverseLink start best links st with
          | .error e => .error e
          | .ok st1 =>
            findPathLoopE calculateLinksForNode calculateHeuristicCostToTraverseLink
              start goal fuel
              { st1 with closed := setAdd st1.closed best
                         openSet := st1.openSet.erase best
                         iterations := st1.iterations + 1 }

def findPathE {ε : Type} (calculateLinksForNode : Node → Except ε (List Link))
    (calculateHeuristicCostToTraverseLink : Node → Node → Except ε Int)
    (start goal : Node) (fuel : Nat) : Except ε (Option Path) :=
  findPathLoopE calculateLinksForNode calculateHeuristicCostToTraverseLink start goal fuel
    (initState start)

/-- Spec-side formalization of the claim's hypothesis "calculateLinksForNode
or calculateHeuristicCostToTraverseLink raises an error during a findPath
invocation".  `CollaboratorRaises exp h start goal k st e` says: running the
loop from state `st`, the first `k` iterations complete normally (collapsing
their collaborator calls errorless), and the next iteration makes a
collaborator call that raises `e` — either the expander call on the selected
non-goal node fails, or, after an error-free prefix of that node's
relaxations, the heuristic call made inside the next relaxation (guarded
exactly as in the source: target not closed and the update condition holds)
fails.  The constructors mirror, in order, the calls `findPathLoopE` makes. -/
inductive CollaboratorRaises {ε : Type} (exp : Node → Except ε (List Link))
    (h : Node → Node → Except ε Int) (start goal : Node) :
    Nat → SearchState → ε → Prop where
  | expander {st : SearchState} {best : Node} {e : ε} :
      findBest st.totalCosts st.openSet none = some best →
      goal ≠ best →
      exp best = .error e →
      CollaboratorRaises exp h start goal 0 st e
  | heuristic {st st' : SearchState} {best : Node} {links pre post : List Link}
      {l : Link} {e : ε} :
      findBest st.totalCosts st.openSet none = some best →
      goal ≠ best →
      exp best = .ok links →
      links = pre ++ l :: post →
      relaxAllE h start best pre st = .ok st' →
      l.toNode ∉ st'.closed →
      (!(st'.linkCosts l.toNode).isSome
        || jsGt (st'.linkCosts l.toNode) ((st'.linkCosts best).getD 0 + l.cost)) = true →
      h start l.toNode = .error e →
      CollaboratorRaises exp h start goal 0 st e
  | later {st st1 : SearchState} {best : Node} {links : List Link} {k : Nat} {e : ε} :
      findBest st.totalCosts st.openSet none = some best →
      goal ≠ best →
      exp best = .ok links →
      relaxAllE h start best links st = .ok st1 →
      CollaboratorRaises exp h start goal k
        { st1 with closed := setAdd st1.closed best
                   openSet := st1.openSet.erase best
                   iterations := st1.iterations + 1 } e →
      CollaboratorRaises exp h start goal (k + 1) st e

/-- A relaxation whose guards fire and whose heuristic call fails produces
exactly that error. -/
theorem relaxLinkE_heuristic_error {ε : Type} {h : Node → Node → Except ε Int}
    {start best : Node} {st : SearchState} {l : Link} {e : ε}
    (hnc : l.toNode ∉ st.closed)
    (hcond : (!(st.linkCosts l.toNode).isSome
      || jsGt (st.linkCosts l.toNode) ((st.linkCosts best).getD 0 + l.cost)) = true)
    (hh : h start l.toNode = .error e) :
    relaxLinkE h start best st l = .error e := by
  unfold relaxLinkE
  rw [if_neg hnc, if_pos hcond, hh]

theorem relaxAllE_cons {ε : Type} (h : Node → Node → Except ε Int)
    (start best : Node) (l : Link) (ls : List Link) (st : SearchState) :
    relaxAllE h start best (l :: ls) st =
      match relaxLinkE h start best st l with
      | .error e => .error e
      | .ok st' => relaxAllE h start best ls st' := rfl

theorem relaxAllE_append {ε : Type} (h : Node → Node → Except ε Int)
    (start best : Node) (pre rest : List Link) :
    ∀ st : SearchState, relaxAllE h start best (pre ++ rest) st =
      match relaxAllE h start best pre st with
      | .error e => .error e
      | .ok st' => relaxAllE h start best rest st' := by
  induction pre with
  | nil => intro st; rfl
  | cons l ls ih =>
    intro st
    rw [List.cons_append, relaxAllE_cons, relaxAllE_cons]
    rcases hr : relaxLinkE h start best st l with e | st'
    · rfl
    · dsimp only
      exact ih st'

/-- An error raised while relaxing any link of the list aborts the whole
relaxation fold with that error. -/
theorem relaxAllE_error_at {ε : Type} {h : Node → Node → Except ε Int}
    {start best : Node} {st st' : SearchState} {links pre post : List Link}
    {l : Link} {e : ε}
    (hsplit : links = pre ++ l :: post)
    (hpre : relaxAllE h start best pre st = .ok st')
    (hl : relaxLinkE h start best st' l = .error e) :
    relaxAllE h start best links st = .error e := by
  subst hsplit
  rw [relaxAllE_append, hpre]
  dsimp only
  unfold relaxAllE
  rw [hl]

theorem findPathLoopE_succ {ε : Type} (exp : Node → Except ε (List Link))
    (h : Node → Node → Except ε Int) (start goal : Node) (fuel : Nat)
    (st : SearchState) :
    findPathLoopE exp h start goal (fuel + 1) st =
      match findBest st.totalCosts st.openSet none with
      | none => .ok (some { found := false, iterations := st.iterations
                            cost := none, path := none })
      | some best =>
        if goal = best then
          match reconstruct st.cameFrom (st.closed.length + 2) best with
          | none => .ok none
          | some p =>
            .ok (some { found := true, iterations := st.iterations
                        cost := st.linkCosts best, path := some p })
        else
          match exp best with
          | .error e => .error e
          | .ok links =>
            match relaxAllE h start best links st with
            | .error e => .error e
            | .ok st1 =>
              findPathLoopE exp h start goal fuel
                { st1 with closed := setAdd st1.closed best
                           openSet := st1.openSet.erase best
                           iterations := st1.iterations + 1 } := rfl

/-- Propagation through the loop: a collaborator error raised at the
`k`-th iteration aborts the run with that error, for every loop fuel that
reaches the error point. -/
theorem loopE_error {ε : Type} {exp : Node → Except ε (List Link)}
    {h : Node → Node → Except ε Int} {start goal : Node} :
    ∀ {k : Nat} {st : SearchState} {e : ε},
      CollaboratorRaises exp h start goal k st e →
      ∀ fuel, k < fuel →
      findPathLoopE exp h start goal fuel st = .error e := by
  intro k st e hr
  induction hr with
  | expander hb hg herr =>
    intro fuel hlt
    rcases fuel with _ | m
    · omega
    rw [findPathLoopE_succ, hb]
    dsimp only
    rw [if_neg hg, herr]
  | heuristic hb hg hok hsplit hpre hnc hcond hh =>
    intro fuel hlt
    rcases fuel with _ | m
    · omega
    rw [findPathLoopE_succ, hb]
    dsimp only
    rw [if_neg hg, hok]
    dsimp only
    rw [relaxAllE_error_at hsplit hpre (relaxLinkE_heuristic_error hnc hcond hh)]
  | later hb hg hok hrel _ ih =>
    intro fuel hlt
    rcases fuel with _ | m
    · omega
    rw [findPathLoopE_succ, hb]
    dsimp only
    rw [if_neg hg, hok]
    dsimp only
    rw [hrel]
    dsimp only
    exact ih m (by omega)

/-- C8: whenever a collaborator call raises an error at any point of a
`findPath` invocation — the expander failing on the node selected at any
iteration, or the heuristic failing inside any relaxation of any iteration
(`CollaboratorRaises` enumerates exactly the calls the invocation makes) —
the search aborts immediately and that error is propagated to the caller:
once the loop fuel covers the error point, the invocation returns exactly
`Except.error e`, and no `Path` value (partial or otherwise, i.e. no
`Except.ok` result) is returned from that invocation. -/
theorem collaborator_error_propagates (ε : Type)
    (calculateLinksForNode : Node → Except ε (List Link))
    (calculateHeuristicCostToTraverseLink : Node → Node → Except ε Int)
    (start goal : Node) (k : Nat) (e : ε) (fuel : Nat)
    (hraise : CollaboratorRaises calculateLinksForNode
      calculateHeuristicCostToTraverseLink start goal k (initState start) e)
    (hfuel : k < fuel) :
    findPathE calculateLinksForNode calculateHeuristicCostToTraverseLink start goal fuel
      = .error e ∧
    ∀ r, findPathE calculateLinksForNode calculateHeuristicCostToTraverseLink start goal fuel
      ≠ .ok r := by
  have herr : findPathE calculateLinksForNode calculateHeuristicCostToTraverseLink
      start goal fuel = .error e := loopE_error hraise fuel hfuel
  refine ⟨herr, ?_⟩
  intro r hok
  rw [herr] at hok
  cases hok

/-- C8 witness: an expander error raised on the second loop iteration, and a
heuristic error raised while relaxing the second link of the first
expansion, both propagate to the caller. -/
theorem collaborator_error_propagates_witness :
    (findPathE
        (fun n => if n = "a" then Except.ok [(⟨"a", "b", 1⟩ : Link)]
          else if n = "b" then Except.error "late" else Except.ok [])
        (fun _ _ => (Except.ok 0 : Except String Int)) "a" "c" 5
      = Except.error "late") ∧
    (findPathE
        (fun n => if n = "a"
          then (Except.ok [⟨"a", "b", 1⟩, ⟨"a", "d", 2⟩] : Except String (List Link))
          else Except.ok [])
        (fun _ t => if t = "d" then Except.error "hfail" else Except.ok 0) "a" "z" 5
      = Except.error "hfail") :=
  ⟨(collaborator_error_propagates String
      (fun n => if n = "a" then Except.ok [(⟨"a", "b", 1⟩ : Link)]
        else if n = "b" then Except.error "late" else Except.ok [])
      (fun _ _ => (Except.ok 0 : Except String Int)) "a" "c" 1 "late" 5
      (CollaboratorRaises.later rfl (by decide) rfl rfl
        (CollaboratorRaises.expander rfl (by decide) rfl))
      (by omega)).1,
   (collaborator_error_propagates String
      (fun n => if n = "a"
        then (Except.ok [⟨"a", "b", 1⟩, ⟨"a", "d", 2⟩] : Except String (List Link))
        else Except.ok [])
      (fun _ t => if t = "d" then Except.error "hfail" else Except.ok 0) "a" "z" 0
      "hfail" 5
      (CollaboratorRaises.heuristic rfl (by decide) rfl
        (show [(⟨"a", "b", 1⟩ : Link), ⟨"a", "d", 2⟩]
          = [(⟨"a", "b", 1⟩ : Link)] ++ (⟨"a", "d", 2⟩ : Link) :: [] from rfl)
        rfl (by decide) (by decide) rfl)
      (by omega)).1⟩

end AStarAsync
